import Mathlib

/-!
Verification development for the markdown-kanban task-board core: the
bidirectional Markdown/task-model transducer (parser, serializer, task line
editor, EOL utility).  Text is embedded as `List Char`; each TypeScript
function of the core is translated into a computable Lean function of the
same name.  Regular expressions from the source are rendered as bespoke
deterministic matchers that reproduce the JavaScript engine's semantics
(greedy quantifiers with backtracking) for the exact patterns used.
-/

namespace MdTasks

/-- Text is modelled as a list of characters, so that byte-level claims about
documents become statements about lists. -/
abbrev Str := List Char

/-- The set of characters matched by the JavaScript regex class `\s` that can
occur in the documents this core manipulates (space, tab, LF, CR, vertical
tab, form feed).  The remaining Unicode space characters behave identically
and are omitted from the model. -/
def isJsWs (c : Char) : Bool :=
  c = ' ' || c = '\t' || c = '\n' || c = '\r' || c = '\x0b' || c = '\x0c'

/-- Characters matched by the JavaScript regex `.` (without the `s` flag):
everything except the line terminators.  The model keeps LF and CR, the two
terminators that can occur in these documents. -/
def dotOk (c : Char) : Bool := c ≠ '\n' && c ≠ '\r'

/-- JavaScript `String.prototype.trim`: strip `\s` characters on both ends. -/
def jsTrim (s : Str) : Str :=
  ((s.dropWhile isJsWs).reverse.dropWhile isJsWs).reverse

/-- Whether `pat` occurs as a contiguous substring of `s`. -/
def containsSub (s pat : Str) : Bool :=
  match s with
  | [] => pat.isPrefixOf ([] : Str)
  | _ :: rest => pat.isPrefixOf s || containsSub rest pat

/-- Number of LF characters in a string. -/
def countNl (s : Str) : Nat := s.countP (· = '\n')

/-- Prepend a character to the first line of a split result. -/
def consFirst (c : Char) : List Str → List Str
  | [] => [[c]]
  | l :: ls => (c :: l) :: ls

/-- `splitLines` from the EOL utility: `text.split(/\r?\n/)`.  Each CRLF or
lone LF ends a line; a CR not followed by LF stays inside its line. -/
def splitLines : Str → List Str
  | [] => [[]]
  | c :: rest =>
    if c = '\n' then [] :: splitLines rest
    else if c = '\r' then
      match rest with
      | '\n' :: rest2 => [] :: splitLines rest2
      | [] => consFirst '\r' (splitLines [])
      | c2 :: rest2 => consFirst '\r' (splitLines (c2 :: rest2))
    else consFirst c (splitLines rest)

/-- `joinLines` from the EOL utility: join with the given EOL sequence. -/
def joinLines : List Str → Str → Str
  | [], _ => []
  | [l], _ => l
  | l :: ls, sep => l ++ sep ++ joinLines ls sep

/-- `detectEol` from the EOL utility, abstracted to the EOL sequence the
returned record carries: CRLF when the text contains one, LF otherwise. -/
def detectEol (text : Str) : Str :=
  if containsSub text ['\r', '\n'] then ['\r', '\n'] else ['\n']

/-- JavaScript `Array.prototype.splice(start, deleteCount)` restricted to
removal (`start ≥ 0`; out-of-range values clamp). -/
def spliceRemove (l : List α) (start cnt : Nat) : List α :=
  l.take start ++ l.drop (start + cnt)

/-- JavaScript `Array.prototype.splice(start, 0, ...items)`: insertion. -/
def spliceInsert (l : List α) (start : Nat) (items : List α) : List α :=
  l.take start ++ items ++ l.drop start

/-- JavaScript `Array.prototype.splice(start, deleteCount, ...items)`. -/
def spliceReplace (l : List α) (start cnt : Nat) (items : List α) : List α :=
  l.take start ++ items ++ l.drop (start + cnt)

/-- JavaScript `Array.prototype.slice(start, stop)` for in-range indices. -/
def jsSlice (l : List α) (start stop : Nat) : List α :=
  (l.drop start).take (stop - start)

/-- Replace the leftmost occurrence of any of the literal patterns `pats`
(tried in order at each position) by `repl`; identity when none occurs.
This renders `String.prototype.replace` with a small alternation regex such
as `/\[[xX]\]/` (patterns `[x]` and `[X]`). -/
def replaceFirstIn (s : Str) (pats : List Str) (repl : Str) : Str :=
  match s with
  | [] => []
  | c :: rest =>
    match pats.find? (fun p => p.isPrefixOf s) with
    | some p => repl ++ s.drop p.length
    | none => c :: replaceFirstIn rest pats repl

/-- Final step shared by the line regexes ending in `\s*(.+)$` (and
`\s+(.+)$`): after a greedy whitespace run `ws`, the tail group `(.+)$` must
be a non-empty run of `.`-compatible characters reaching the end.  When the
remainder is empty the engine backtracks one whitespace character, which then
must itself be `.`-compatible.  Returns the final whitespace group and the
captured tail. -/
def matchWsTail (ws tail : Str) : Option (Str × Str) :=
  if tail ≠ [] then
    if tail.all dotOk then some (ws, tail) else none
  else
    match ws.getLast? with
    | some c => if dotOk c then some (ws.dropLast, [c]) else none
    | none => none

/-- The checkbox pattern `/^(\s*-\s*\[[ xX]\]\s*)(.+)$/` of
`TaskLineEditor.applyTitleChange`: returns the marker group (indentation,
dash, brackets and following whitespace) and the title group.  Backtracking
into a `\s*` run before a non-whitespace literal can never succeed, so those
runs are maximal; the final run follows `matchWsTail`. -/
def matchCheckboxTitle (l : Str) : Option (Str × Str) :=
  match l.dropWhile isJsWs with
  | '-' :: r2 =>
    match r2.dropWhile isJsWs with
    | '[' :: b :: ']' :: r4 =>
      if b = ' ' || b = 'x' || b = 'X' then
        match matchWsTail (r4.takeWhile isJsWs) (r4.dropWhile isJsWs) with
        | some (ws3f, g2) =>
          some (l.takeWhile isJsWs ++ '-' :: r2.takeWhile isJsWs ++ '[' :: b :: ']' :: ws3f, g2)
        | none => none
      else none
    | _ => none
  | _ => none

/-- Backtracking over a greedy `\s*` run followed by a literal key, a colon
and `\s*(.+)$`: try keeping `p` whitespace characters for `p` from the run
length down to zero, as the JavaScript engine does, and succeed on the first
position where the rest of the pattern matches. -/
def dashKeyAttempt (key : Str) (ws2 : Str) (rest : Str) (p : Nat) : Bool :=
  let s := ws2.drop p ++ rest
  if (key ++ [':']).isPrefixOf s then
    let afterColon := s.drop (key.length + 1)
    (matchWsTail (afterColon.takeWhile isJsWs) (afterColon.dropWhile isJsWs)).isSome
  else false

/-- Try the attempts for `p` from the given bound down to zero, as the greedy
engine does, and succeed on the first matching position. -/
def dashKeyBacktrack (key : Str) (ws2 : Str) (rest : Str) : Nat → Bool
  | 0 => dashKeyAttempt key ws2 rest 0
  | q + 1 => dashKeyAttempt key ws2 rest (q + 1) || dashKeyBacktrack key ws2 rest q

/-- Test for the metadata line pattern `^\s*-\s*<key>:\s*.+$` used by
`TaskLineEditor.findStatusLineIndex` (key `status`) and
`findMetadataLineIndex` (an escaped literal key). -/
def matchDashKeyLine (key : Str) (l : Str) : Bool :=
  match l.dropWhile isJsWs with
  | '-' :: r2 =>
    dashKeyBacktrack key (r2.takeWhile isJsWs) (r2.dropWhile isJsWs)
      (r2.takeWhile isJsWs).length
  | _ => false

/-- The heading pattern `/^(#{1,6})\s+(.+)$/`: a run of one to six hashes
followed by at least one whitespace character and a non-empty tail.  A run of
more than six hashes cannot match (the character after the shortened run is
another hash, not whitespace). -/
def matchHeading (l : Str) : Option (Nat × Str) :=
  let hashes := l.takeWhile (· = '#')
  let rest := l.drop hashes.length
  if hashes.length = 0 || 6 < hashes.length then none
  else
    let ws := rest.takeWhile isJsWs
    let tail := rest.dropWhile isJsWs
    if ws = [] then none
    else
      match matchWsTail ws tail with
      | some (wsf, g2) => if wsf = [] && tail = [] then none else some (hashes.length, g2)
      | none => none

/-- Test for `/^#{1,6}\s+/` (`MarkdownSerializer.findFirstHeadingLine`):
unlike `matchHeading`, no text is required after the whitespace. -/
def matchHeadingMark (l : Str) : Bool :=
  let hashes := l.takeWhile (· = '#')
  let rest := l.drop hashes.length
  1 ≤ hashes.length && hashes.length ≤ 6 &&
    (match rest with
     | c :: _ => isJsWs c
     | [] => false)

/-- The key/value pattern `/^([^:]+):\s*(.+)$/` of `MarkdownParser`:
split at the first colon; the key part must be non-empty and the value part
must be non-empty after the greedy whitespace run (with the one-character
backtrack of `matchWsTail`). -/
def matchKeyValue (s : Str) : Option (Str × Str) :=
  match s.takeWhile (fun c => c ≠ ':'), s.drop (s.takeWhile (fun c => c ≠ ':')).length with
  | [], _ => none
  | key, ':' :: afterColon =>
    match matchWsTail (afterColon.takeWhile isJsWs) (afterColon.dropWhile isJsWs) with
    | some (_, g2) => some (key, g2)
    | none => none
  | _, _ => none

/-- `rawTitle.replace(/^\[[ xX]\]\s*/, '')` in `MarkdownParser.extractTask`:
strip a leading checkbox marker and the whitespace after it. -/
def stripCheckbox (s : Str) : Str :=
  match s with
  | '[' :: b :: ']' :: rest =>
    if b = ' ' || b = 'x' || b = 'X' then rest.dropWhile isJsWs else s
  | _ => s

/-- Modelled from the spec: the `Path` value object (its source file
`domain/valueObjects/path.ts` is not part of the sources here).  An ordered
sequence of heading-text segments; the empty sequence is the root.  Equality
is element-wise; rendering joins the segments with a separator, the root
rendering as a sentinel label. -/
structure Path where
  segments : List Str
deriving DecidableEq, Repr

def Path.create (segments : List Str) : Path := ⟨segments⟩

def Path.isRoot (p : Path) : Bool := p.segments.isEmpty

def Path.equals (p q : Path) : Bool := p.segments = q.segments

def Path.depth (p : Path) : Nat := p.segments.length

def Path.lastSeg (p : Path) : Str := p.segments.getLastD []

def Path.render (p : Path) : Str :=
  if p.isRoot then ("(root)".toList)
  else (p.segments.intersperse (" / ".toList)).flatten

/-- Modelled from the spec: the `Status` value object
(`domain/valueObjects/status.ts` is not in the sources): a validated string
token whose construction fails when the input is empty or whitespace-only. -/
structure Status where
  value : Str
deriving DecidableEq, Repr

inductive StatusError where
  | emptyStatus
deriving DecidableEq, Repr

def Status.create (v : Str) : Except StatusError Status :=
  if jsTrim v = [] then .error .emptyStatus else .ok ⟨v⟩

/-- `TaskMetadata`: a string-keyed map with JavaScript object key semantics,
modelled as an association list in insertion order with unique keys. -/
abbrev Metadata := List (Str × Str)

def mdLookup (m : Metadata) (k : Str) : Option Str :=
  (m.find? (fun kv => kv.1 = k)).map (·.2)

def mdHasKey (m : Metadata) (k : Str) : Bool := (mdLookup m k).isSome

/-- `metadata[key] = value`: update in place when the key exists (keeping its
position, as JavaScript objects do), append otherwise. -/
def mdSet (m : Metadata) (k v : Str) : Metadata :=
  match m with
  | [] => [(k, v)]
  | (k0, v0) :: rest => if k0 = k then (k, v) :: rest else (k0, v0) :: mdSet rest k v

def mdKeys (m : Metadata) : List Str := m.map (·.1)

/-- The rest/spread `const { status: _, ...other } = metadata`. -/
def mdErase (m : Metadata) (k : Str) : Metadata := m.filter (fun kv => kv.1 ≠ k)

/-- Modelled from the spec: `generateTaskId`
(`domain/valueObjects/taskId.ts` is not in the sources) is a deterministic
function of path and title; the spec allows either the literal
`"<path>::<title>"` concatenation or a hash of that same string, and the
model uses the literal form. -/
def generateTaskId (path : Path) (title : Str) : Str :=
  path.render ++ ':' :: ':' :: title

/-- `FrontmatterConfig` from `markdownParser.ts`. -/
structure FrontmatterConfig where
  statuses : Option (List Str) := none
  doneStatuses : Option (List Str) := none
  defaultStatus : Option Str := none
  defaultDoneStatus : Option Str := none
  sortBy : Option Str := none
  syncCheckboxWithDone : Option Bool := none
  filterPaths : Option (List Str) := none
deriving DecidableEq, Repr

/-- `ParsedTask` from `markdownParser.ts`. -/
structure ParsedTask where
  id : Str
  title : Str
  status : Status
  path : Path
  isChecked : Bool
  metadata : Metadata
  startLine : Nat
  endLine : Nat
deriving DecidableEq, Repr

/-- `ParseResult` from `markdownParser.ts`; warning strings are modelled as
the duplicated ids (the source emits one human-readable message per
duplicated id, whose exact wording no claim depends on). -/
structure ParseResult where
  tasks : List ParsedTask
  headings : List Path
  warnings : List Str
  config : Option FrontmatterConfig
deriving DecidableEq, Repr

inductive MarkdownParseError where
  | parseFailed
deriving DecidableEq, Repr

/-!
The mdast block tree.  The generic Markdown-to-tree facility (`remark` with
GFM, an external library) is modelled by `parseToAst` below for the block
constructs the core consumes: headings, lists, list items with GFM task
checkboxes, paragraphs, block quotes and fenced code.  A paragraph node
carries `raw`, the source slice its position offsets denote (for a task
item's first paragraph this starts at the checkbox bracket, as the source
comments note), and `txt`, the text `extractTextFromNodes` computes from its
inline children; the inline layer is modelled as literal text, which is exact
for documents without inline markup.  Positions are 1-based content lines and
always present, as `remark` supplies them.
-/

mutual
inductive MdNode where
  | heading (depth : Nat) (txt : Str) (startLine endLine : Nat)
  | paragraph (raw : Str) (txt : Str) (startLine endLine : Nat)
  | list (children : MdNodes) (startLine endLine : Nat)
  | listItem (checked : Option Bool) (children : MdNodes) (startLine endLine : Nat)
  | blockquote (startLine endLine : Nat)
  | code (startLine endLine : Nat)
deriving Repr
inductive MdNodes where
  | nil
  | cons (head : MdNode) (tail : MdNodes)
deriving Repr
end

/-- Modelled from the spec: frontmatter extraction (the `gray-matter`
library behind `RemarkClient.parseFrontmatter` is external).  A delimited
header segment at the very start of the document — an opening `---` line and
a closing `---` line — is removed; the returned content is the exact suffix
of the input after the closing line.  The model handles LF-delimited
frontmatter; the YAML mapping itself is not modelled, so the extracted
configuration is absent (none of the settled claims exercises a populated
frontmatter configuration). -/
def fmScan : Nat → Str → Option Str
  | 0, _ => none
  | fuel + 1, s =>
    if ("---\n".toList).isPrefixOf s then some (s.drop 4)
    else if s = ("---".toList) then some []
    else
      match s.dropWhile (· ≠ '\n') with
      | [] => none
      | _ :: rest => fmScan fuel rest

def parseFrontmatter (md : Str) : Str :=
  if ("---\n".toList).isPrefixOf md then
    match fmScan md.length (md.drop 4) with
    | some c => c
    | none => md
  else md

/-- `RemarkClient.countFrontmatterLines`: zero when nothing was stripped,
otherwise the number of newlines in the stripped prefix
(`frontmatter.split('\n').length - 1`). -/
def countFrontmatterLines (original content : Str) : Nat :=
  if original = content then 0
  else countNl (original.take (original.length - content.length))

/-!
The block parser modelling `RemarkClient.parseToAst` (remark + remark-gfm,
an external library), restricted to the constructs the core consumes and to
their use in this document format: ATX headings, fenced code at a `3-backtick`
fence line, block quotes as runs of `>`-prefixed lines, dash lists whose item
content is indented by two columns, GFM task checkboxes, and paragraphs.
Lazy paragraph continuation lines, setext headings and other CommonMark
refinements are outside the modelled subset.  Recursion into list item
content uses a fuel bound large enough for any chain of blocks.
-/

def isBlankLine (l : Str) : Bool := jsTrim l = []

def isFenceLine (l : Str) : Bool :=
  ("```".toList).isPrefixOf (l.dropWhile (· = ' '))

def isQuoteLine (l : Str) : Bool :=
  match l.dropWhile (· = ' ') with
  | '>' :: _ => true
  | _ => false

/-- A dash list item line at column 0 of the current frame. -/
def isItemLine (l : Str) : Bool :=
  match l with
  | '-' :: ' ' :: _ => true
  | ['-'] => true
  | _ => false

/-- GFM task checkbox at the start of a list item's text: `[ ]`, `[x]` or
`[X]` followed by whitespace or the end of the text. -/
def checkboxOf (t : Str) : Option Bool :=
  match t with
  | '[' :: b :: ']' :: rest =>
    if (b = ' ' || b = 'x' || b = 'X') &&
        (match rest with | [] => true | c :: _ => isJsWs c) then
      some (b ≠ ' ')
    else none
  | _ => none

/-- A paragraph run is broken by a blank line or by a construct that can
interrupt a paragraph: a fence, a quote, an ATX heading or a list item. -/
def isParaBreak (l : Str) : Bool :=
  isBlankLine l || isFenceLine l || isQuoteLine l || matchHeadingMark l || isItemLine l

/-- Collect the contiguous region of lines belonging to a list opened by an
item line: further item lines and lines indented at least two columns
continue it, and interior blank lines stay with it when more list content
follows; trailing blanks are left outside. -/
def collectListRegion (acc pend : List (Nat × Str)) :
    List (Nat × Str) → List (Nat × Str) × List (Nat × Str)
  | [] => (acc, pend)
  | (n, l) :: rest =>
    if isBlankLine l then collectListRegion acc (pend ++ [(n, l)]) rest
    else if isItemLine l || 2 ≤ (l.takeWhile (· = ' ')).length then
      collectListRegion (acc ++ pend ++ [(n, l)]) [] rest
    else (acc, pend ++ (n, l) :: rest)

/-- Split a list region into its items: each item is an item line together
with the following lines up to the next item line. -/
def splitItemsGo (cur : List (Nat × Str)) : List (Nat × Str) → List (List (Nat × Str))
  | [] => [cur]
  | x :: rest =>
    if isItemLine x.2 then cur :: splitItemsGo [x] rest
    else splitItemsGo (cur ++ [x]) rest

def splitItems : List (Nat × Str) → List (List (Nat × Str))
  | [] => []
  | x :: rest => splitItemsGo [x] rest

/-- The source position at which an item ends: its last non-blank line. -/
def itemEndLine (fallback : Nat) (ls : List (Nat × Str)) : Nat :=
  match (ls.filter (fun nl => !isBlankLine nl.2)).getLast? with
  | some (n, _) => n
  | none => fallback

/-- An item's content lines: the text after the `- ` marker on the item line
and the continuation lines dedented by the two-column content indent. -/
def itemContent : List (Nat × Str) → List (Nat × Str)
  | [] => []
  | (n, l) :: rest =>
    (n, l.drop 2) :: rest.map (fun nl => (nl.1, if isBlankLine nl.2 then [] else nl.2.drop 2))

/-- Build one list item node: check the GFM checkbox on the item's text,
parse the item's content lines with the supplied sub-parser, and record the
line span. -/
def buildOneItem (sub : List (Nat × Str) → MdNodes) (ls : List (Nat × Str)) : MdNode :=
  match ls with
  | [] => .listItem none .nil 0 0
  | (n, _) :: _ =>
    let content := itemContent ls
    let checked :=
      match content with
      | (_, t) :: _ => checkboxOf t
      | [] => none
    .listItem checked (sub content) n (itemEndLine n ls)

def buildItems (sub : List (Nat × Str) → MdNodes) : List (List (Nat × Str)) → MdNodes
  | [] => .nil
  | g :: gs => .cons (buildOneItem sub g) (buildItems sub gs)

def parseBlocks : Nat → List (Nat × Str) → MdNodes
  | 0, _ => .nil
  | fuel + 1, lines =>
    match lines with
    | [] => .nil
    | (n, l) :: rest =>
      if isBlankLine l then parseBlocks fuel rest
      else if isFenceLine l then
        let inside := rest.takeWhile (fun nl => !isFenceLine nl.2)
        match rest.dropWhile (fun nl => !isFenceLine nl.2) with
        | (m, _) :: rest2 => .cons (.code n m) (parseBlocks fuel rest2)
        | [] => .cons (.code n (itemEndLine n inside)) .nil
      else if isQuoteLine l then
        let qs := rest.takeWhile (fun nl => isQuoteLine nl.2)
        let rest2 := rest.dropWhile (fun nl => isQuoteLine nl.2)
        .cons (.blockquote n (itemEndLine n ((n, l) :: qs))) (parseBlocks fuel rest2)
      else
        match matchHeading l with
        | some (d, t) => .cons (.heading d (jsTrim t) n n) (parseBlocks fuel rest)
        | none =>
          if isItemLine l then
            let (region, after) := collectListRegion [] [] ((n, l) :: rest)
            let e := itemEndLine n region
            .cons (.list (buildItems (parseBlocks fuel) (splitItems region)) n e)
              (parseBlocks fuel after)
          else
            let para := rest.takeWhile (fun nl => !isParaBreak nl.2)
            let rest2 := rest.dropWhile (fun nl => !isParaBreak nl.2)
            let raw := (((n, l) :: para).map (·.2)).intersperse ['\n'] |>.flatten
            .cons (.paragraph raw raw n (itemEndLine n ((n, l) :: para))) (parseBlocks fuel rest2)

/-- `RemarkClient.parseToAst` on already-frontmatter-stripped content. -/
def parseToAst (content : Str) : MdNodes :=
  let lines := (splitLines content).enum.map (fun ia => (ia.1 + 1, ia.2))
  parseBlocks ((lines.length + 1) * (lines.length + 1)) lines

/-!
`MarkdownParser`: heading stack, tree walk and task extraction, translated
from `markdownParser.ts`.
-/

/-- An entry of the transient heading stack. -/
structure HeadEntry where
  level : Nat
  text : Str
deriving DecidableEq, Repr

abbrev HeadingStack := List HeadEntry

/-- `DEFAULT_STATUS`. -/
def DEFAULT_STATUS : Str := ("todo".toList)

/-- `DEFAULT_DONE_STATUS`. -/
def DEFAULT_DONE_STATUS : Str := ("done".toList)

/-- `MarkdownParser.determineStatus`: the explicit `status:` metadata value
when present and truthy (a non-empty string), else the configured or literal
done status for a checked box, else the configured or literal default
status. -/
def determineStatus (explicitStatus : Option Str) (isChecked : Bool)
    (config : Option FrontmatterConfig) : Str :=
  match explicitStatus with
  | some s =>
    if s ≠ [] then s
    else if isChecked then ((config.bind (·.defaultDoneStatus)).getD DEFAULT_DONE_STATUS)
    else ((config.bind (·.defaultStatus)).getD DEFAULT_STATUS)
  | none =>
    if isChecked then ((config.bind (·.defaultDoneStatus)).getD DEFAULT_DONE_STATUS)
    else ((config.bind (·.defaultStatus)).getD DEFAULT_STATUS)

/-- The while-loop of `MarkdownParser.processHeading` (and of
`MarkdownSerializer.buildPathAtLine`): pop stack entries from the top while
their level is at least the new heading's level. -/
def popGE (stack : HeadingStack) (level : Nat) : HeadingStack :=
  ((stack.reverse.dropWhile (fun h => level ≤ h.level)).reverse)

/-- `MarkdownParser.processHeading`: returns the updated stack and the path
recorded into the `headings` output. -/
def processHeading (level : Nat) (text : Str) (stack : HeadingStack) :
    HeadingStack × Path :=
  let stack2 := popGE stack level ++ [⟨level, text⟩]
  (stack2, Path.create (stack2.map (·.text)))

/-- The metadata loop over one metadata candidate item's children
(`MarkdownParser.extractMetadata`, inner loop): each paragraph's text is
trimmed and matched against the key/value pattern; empty keys are
dropped. -/
def extractMetadataParas (ns : MdNodes) (acc : Metadata) : Metadata :=
  match ns with
  | .nil => acc
  | .cons n rest =>
    match n with
    | .paragraph _ txt _ _ =>
      let text := jsTrim txt
      let acc2 :=
        match matchKeyValue text with
        | some (k, v) =>
          let key := jsTrim k
          let value := jsTrim v
          if key ≠ [] then mdSet acc key value else acc
        | none => acc
      extractMetadataParas rest acc2
    | _ => extractMetadataParas rest acc

/-- `MarkdownParser.extractMetadata`, outer loop over the sublist's items. -/
def extractMetadataItems (ns : MdNodes) (acc : Metadata) : Metadata :=
  match ns with
  | .nil => acc
  | .cons n rest =>
    match n with
    | .listItem _ ch _ _ => extractMetadataItems rest (extractMetadataParas ch acc)
    | _ => extractMetadataItems rest acc

/-- The loop of `MarkdownParser.extractTask` over an item's children: the
first paragraph supplies the title (source slice, trimmed, checkbox marker
stripped); each nested list replaces the metadata and moves the end line to
the sublist's end line. -/
def scanItemChildren (ns : MdNodes) (st : Str × Metadata × Nat) : Str × Metadata × Nat :=
  match ns with
  | .nil => st
  | .cons n rest =>
    match n, st with
    | .paragraph raw _ _ _, (title, md, e) =>
      if title = [] then scanItemChildren rest (stripCheckbox (jsTrim raw), md, e)
      else scanItemChildren rest (title, md, e)
    | .list ch _ le, (title, _, _) =>
      scanItemChildren rest (title, extractMetadataItems ch [], le)
    | _, _ => scanItemChildren rest st

/-- `MarkdownParser.extractTask`. -/
def extractTask (checked : Option Bool) (children : MdNodes)
    (itemStart itemEnd : Nat) (stack : HeadingStack) (lineOffset : Nat)
    (config : Option FrontmatterConfig) : Option ParsedTask :=
  let isChecked := checked = some true
  let (title, metadata, endLine) := scanItemChildren children ([], [], itemEnd)
  if title = [] then none
  else
    let path := Path.create (stack.map (·.text))
    let statusValue := determineStatus (mdLookup metadata ("status".toList)) isChecked config
    match Status.create statusValue with
    | .error _ => none
    | .ok status =>
      let otherMetadata := mdErase metadata ("status".toList)
      let id := generateTaskId path title
      some
        { id := id, title := title, status := status, path := path
          isChecked := isChecked, metadata := otherMetadata
          startLine := itemStart + lineOffset, endLine := endLine + lineOffset }

mutual
/-- `MarkdownParser.processList`: items with a checkbox become tasks (unless
inside a blockquote); items without one are searched for nested lists. -/
def processList (ns : MdNodes) (stack : HeadingStack) (tasks : List ParsedTask)
    (lineOffset : Nat) (config : Option FrontmatterConfig) (isInBlockquote : Bool) :
    List ParsedTask :=
  match ns with
  | .nil => tasks
  | .cons n rest =>
    match n with
    | .listItem checked ch s e =>
      match checked with
      | none =>
        processList rest stack (processItemSubLists ch stack tasks lineOffset config isInBlockquote)
          lineOffset config isInBlockquote
      | some c =>
        if isInBlockquote then processList rest stack tasks lineOffset config isInBlockquote
        else
          match extractTask (some c) ch s e stack lineOffset config with
          | some t => processList rest stack (tasks ++ [t]) lineOffset config isInBlockquote
          | none => processList rest stack tasks lineOffset config isInBlockquote
    | _ => processList rest stack tasks lineOffset config isInBlockquote

/-- The inner loop of `processList` for a checkbox-less item: recurse into
its nested lists. -/
def processItemSubLists (ns : MdNodes) (stack : HeadingStack) (tasks : List ParsedTask)
    (lineOffset : Nat) (config : Option FrontmatterConfig) (isInBlockquote : Bool) :
    List ParsedTask :=
  match ns with
  | .nil => tasks
  | .cons n rest =>
    match n with
    | .list ch _ _ =>
      processItemSubLists rest stack (processList ch stack tasks lineOffset config isInBlockquote)
        lineOffset config isInBlockquote
    | _ => processItemSubLists rest stack tasks lineOffset config isInBlockquote
end

/-- `MarkdownParser.walkNodes`: blockquote and code nodes are skipped
outright; headings update the stack and the headings output; lists are
processed for tasks. -/
def walkNodes (ns : MdNodes) (stack : HeadingStack) (headings : List Path)
    (tasks : List ParsedTask) (lineOffset : Nat) (config : Option FrontmatterConfig)
    (isInBlockquote : Bool) : HeadingStack × List Path × List ParsedTask :=
  match ns with
  | .nil => (stack, headings, tasks)
  | .cons n rest =>
    match n with
    | .blockquote _ _ => walkNodes rest stack headings tasks lineOffset config isInBlockquote
    | .code _ _ => walkNodes rest stack headings tasks lineOffset config isInBlockquote
    | .heading d txt _ _ =>
      let (stack2, path) := processHeading d txt stack
      walkNodes rest stack2 (headings ++ [path]) tasks lineOffset config isInBlockquote
    | .list ch _ _ =>
      walkNodes rest stack headings (processList ch stack tasks lineOffset config isInBlockquote)
        lineOffset config isInBlockquote
    | _ => walkNodes rest stack headings tasks lineOffset config isInBlockquote

/-- `MarkdownParser.detectDuplicates`: one warning per id shared by more
than one task (the warning text is modelled as the id itself; the source
builds a human-readable message from title, path and line numbers). -/
def detectDuplicates (tasks : List ParsedTask) : List Str :=
  ((tasks.map (·.id)).dedup).filter (fun i => 1 < tasks.countP (·.id = i))

/-- `MarkdownParser.parse`, with the always-successful result unwrapped;
the frontmatter configuration is absent in the model (YAML is not
modelled). -/
def parseCore (md : Str) : ParseResult :=
  let content := parseFrontmatter md
  let frontmatterLineCount := countFrontmatterLines md content
  let tree := parseToAst content
  let (_, headings, tasks) := walkNodes tree [] [] [] frontmatterLineCount none false
  { tasks := tasks, headings := headings, warnings := detectDuplicates tasks, config := none }

/-- `MarkdownParser.parse` as the `Result`-returning entry point; the source
returns `ok` unconditionally. -/
def parse (md : Str) : Except MarkdownParseError ParseResult := .ok (parseCore md)

/-!
`TaskLineEditor` from `taskLineEditor.ts`: primitive line-level operations on
the caller-owned slice of one task's lines, translated to functions from the
line list to the updated line list.
-/

/-- The scan shared by the two index-finding loops of `TaskLineEditor`:
return the index (counting from `i`) of the first line matching the
metadata-key pattern. -/
def findKeyLineFrom (key : Str) (i : Nat) : List Str → Option Nat
  | [] => none
  | l :: rest => if matchDashKeyLine key l then some i else findKeyLineFrom key (i + 1) rest

/-- `TaskLineEditor.findStatusLineIndex`: the first index from 1 upward whose
line matches `^\s*-\s*status:\s*.+$`; `none` models the source's `-1`. -/
def findStatusLineIndex (taskLines : List Str) : Option Nat :=
  findKeyLineFrom ("status".toList) 1 (taskLines.drop 1)

/-- `TaskLineEditor.findMetadataLineIndex`: same search for an arbitrary
(regex-escaped, hence literal) key. -/
def findMetadataLineIndex (taskLines : List Str) (key : Str) : Option Nat :=
  findKeyLineFrom key 1 (taskLines.drop 1)

/-- JavaScript `line.match(/^(\s*)/)[1]`: the leading whitespace run. -/
def leadingWs (l : Str) : Str := l.takeWhile isJsWs

/-- `TaskLineEditor.applyTitleChange`: replace the text after the checkbox
marker on the first line; a falsy (absent or empty) new title is a no-op, as
is a first line that does not match the checkbox pattern. -/
def applyTitleChange (taskLines : List Str) (newTitle : Option Str) : List Str :=
  match newTitle with
  | none => taskLines
  | some t =>
    if t = [] then taskLines
    else
      match taskLines with
      | [] => taskLines
      | l0 :: rest =>
        match matchCheckboxTitle l0 with
        | some (g1, _) => (g1 ++ t) :: rest
        | none => taskLines

/-- The checkbox-marker half of `TaskLineEditor.applyStatusChange`: replace
the first `[ ]` by `[x]` when the new status is done, or the first `[x]`/`[X]`
by `[ ]` otherwise, on the first line. -/
def applyCheckboxFlip (taskLines : List Str) (isDone : Bool) : List Str :=
  match taskLines with
  | [] => taskLines
  | l0 :: rest =>
    if isDone then replaceFirstIn l0 [['[', ' ', ']']] (['[', 'x', ']']) :: rest
    else replaceFirstIn l0 [['[', 'x', ']'], ['[', 'X', ']']] (['[', ' ', ']']) :: rest

/-- The status-line half of `TaskLineEditor.applyStatusChange`: rewrite the
existing status child line (keeping its indentation) or insert a fresh one at
index 1. -/
def applyStatusLine (taskLines : List Str) (value : Str) : List Str :=
  match findStatusLineIndex taskLines with
  | some i =>
    taskLines.set i (leadingWs (taskLines.getD i []) ++ ("- status: ".toList) ++ value)
  | none => spliceInsert taskLines 1 [("  - status: ".toList) ++ value]

/-- `TaskLineEditor.applyStatusChange`: update the checkbox marker according
to membership of the new status in the done set, then rewrite or insert the
status child line. -/
def applyStatusChange (taskLines : List Str) (newStatus : Option Status)
    (doneStatuses : Option (List Str)) : List Str :=
  match newStatus with
  | none => taskLines
  | some status =>
    let isDone := (doneStatuses.map (·.contains status.value)).getD false
    applyStatusLine (applyCheckboxFlip taskLines isDone) status.value

/-- One step of the metadata loop in `TaskLineEditor.applyMetadataChange`:
delete the line of a key whose new value is empty, otherwise overwrite the
existing line in place or insert after the status line (or at index 1). -/
def applyOneMetadata (taskLines : List Str) (key value : Str) : List Str :=
  if value = [] then
    match findMetadataLineIndex taskLines key with
    | some i => spliceRemove taskLines i 1
    | none => taskLines
  else
    let found := findMetadataLineIndex taskLines key
    let indent :=
      if 1 < taskLines.length then leadingWs (taskLines.getD 1 []) else ("  ".toList)
    let newLine := indent ++ '-' :: ' ' :: key ++ ':' :: ' ' :: value
    match found with
    | some i => taskLines.set i newLine
    | none =>
      let insertIndex :=
        match findStatusLineIndex taskLines with
        | some si => si + 1
        | none => 1
      spliceInsert taskLines insertIndex [newLine]

/-- The deleted-keys pass of `applyMetadataChange`. -/
def removeDeletedKeys (taskLines : List Str) : List Str → List Str
  | [] => taskLines
  | k :: ks =>
    let next :=
      match findMetadataLineIndex taskLines k with
      | some i => spliceRemove taskLines i 1
      | none => taskLines
    removeDeletedKeys next ks

/-- The update pass of `applyMetadataChange` over the new metadata keys in
order. -/
def applyMetadataKeys (taskLines : List Str) (newMetadata : Metadata) : List Str → List Str
  | [] => taskLines
  | k :: ks =>
    applyMetadataKeys (applyOneMetadata taskLines k ((mdLookup newMetadata k).getD [])) newMetadata ks

/-- `TaskLineEditor.applyMetadataChange`: absent new metadata is a no-op;
keys removed from the old metadata lose their lines; the remaining keys are
written through `applyOneMetadata`.  The `status` key is excluded
throughout. -/
def applyMetadataChange (taskLines : List Str) (newMetadata : Option Metadata)
    (oldMetadata : Option Metadata) : List Str :=
  match newMetadata with
  | none => taskLines
  | some newMd =>
    let metadataKeys := (mdKeys newMd).filter (· ≠ ("status".toList))
    let oldKeys :=
      match oldMetadata with
      | some old => (mdKeys old).filter (· ≠ ("status".toList))
      | none => []
    let deletedKeys := oldKeys.filter (fun k => !(mdHasKey newMd k))
    let afterDeletes := removeDeletedKeys taskLines deletedKeys
    applyMetadataKeys afterDeletes newMd metadataKeys

/-!
`MarkdownSerializer` from `markdownSerializer.ts`.
-/

/-- `CreateTaskInfo`. -/
structure CreateTaskInfo where
  title : Str
  path : Path
  status : Status
  metadata : Option Metadata := none
deriving DecidableEq, Repr

/-- `TaskEdit`; the `delete` flag is named `del` (`delete` is reserved in the
host syntax here as it effectively is in JavaScript object position). -/
structure TaskEdit where
  taskId : Option Str := none
  newStatus : Option Status := none
  newTitle : Option Str := none
  newPath : Option Path := none
  newMetadata : Option Metadata := none
  del : Bool := false
  create : Option CreateTaskInfo := none
  doneStatuses : Option (List Str) := none
deriving DecidableEq, Repr

/-- `SerializerError`, refined into the distinct failure messages the source
produces (parse failure, missing task id, task not found, heading not found,
missing move target). -/
inductive SerializerError where
  | parseFailed
  | missingTaskId
  | taskNotFound (id : Str)
  | headingNotFound (path : Path)
  | missingNewPath
deriving DecidableEq, Repr

/-- The scanning loop of `MarkdownSerializer.findFirstHeadingLine`. -/
def findHeadingFrom (i : Nat) : List Str → Option Nat
  | [] => none
  | l :: rest => if matchHeadingMark l then some i else findHeadingFrom (i + 1) rest

/-- `MarkdownSerializer.findFirstHeadingLine`; `none` models `-1`. -/
def findFirstHeadingLine (lines : List Str) : Option Nat :=
  findHeadingFrom 0 lines

/-- `MarkdownSerializer.buildPathAtLine`: replay the heading-stack algorithm
over the raw lines up to and including `lineIndex`. -/
def buildPathAtLine (lines : List Str) (lineIndex : Nat) : Path :=
  let stack := (lines.take (lineIndex + 1)).foldl
    (fun (st : HeadingStack) l =>
      match matchHeading l with
      | some (level, txt) => popGE st level ++ [⟨level, jsTrim txt⟩]
      | none => st) []
  Path.create (stack.map (·.text))

/-- The scanning loop of `MarkdownSerializer.findInsertLineForPath`: find the
target heading line (matching last segment and full path) and then the next
heading at the target's depth or shallower. -/
def fipScan (allLines : List Str) (targetPath : Path) :
    List (Nat × Str) → Option Nat → Option Nat × Option Nat
  | [], tHL => (tHL, none)
  | (i, l) :: rest, tHL =>
    match matchHeading l with
    | some (level, txt) =>
      match tHL with
      | none =>
        if jsTrim txt = targetPath.lastSeg &&
            (buildPathAtLine allLines i).equals targetPath then
          fipScan allLines targetPath rest (some i)
        else fipScan allLines targetPath rest none
      | some _ =>
        if level ≤ targetPath.depth then (tHL, some i)
        else fipScan allLines targetPath rest tHL
    | none => fipScan allLines targetPath rest tHL

/-- `MarkdownSerializer.findInsertLineForPath`. -/
def findInsertLineForPath (lines : List Str) (targetPath : Path) : Nat :=
  let (tHL, nextHL) := fipScan lines targetPath (lines.enum.map (fun il => (il.1, il.2))) none
  match tHL with
  | none => lines.length
  | some _ =>
    match nextHL with
    | some nh => nh
    | none => lines.length

/-- `MarkdownSerializer.findInsertLineForRoot`. -/
def findInsertLineForRoot (lines : List Str) (tasks : List ParsedTask) : Nat :=
  let rootTasks := tasks.filter (fun t => t.path.isRoot)
  match rootTasks.getLast? with
  | some lastTask => lastTask.endLine
  | none =>
    match findFirstHeadingLine lines with
    | some h => h
    | none => lines.length

/-- `MarkdownSerializer.findInsertLineForHeading`. -/
def findInsertLineForHeading (lines : List Str) (tasks : List ParsedTask)
    (targetPath : Path) : Nat :=
  let pathTasks := tasks.filter (fun t => t.path.equals targetPath)
  match pathTasks.getLast? with
  | some lastTask => lastTask.endLine
  | none => findInsertLineForPath lines targetPath

/-- `MarkdownSerializer.validateTargetPath`. -/
def validateTargetPath (md : Str) (targetPath : Path) : Except SerializerError Unit :=
  if targetPath.isRoot then .ok ()
  else
    match parse md with
    | .error _ => .error .parseFailed
    | .ok r =>
      if r.headings.any (fun h => h.equals targetPath) then .ok ()
      else .error (.headingNotFound targetPath)

/-- `MarkdownSerializer.findInsertLineForNewPath`. -/
def findInsertLineForNewPath (md : Str) (targetPath : Path) :
    Except SerializerError Nat :=
  match parse md with
  | .error _ => .error .parseFailed
  | .ok r =>
    let lines := splitLines md
    if targetPath.isRoot then .ok (findInsertLineForRoot lines r.tasks)
    else .ok (findInsertLineForHeading lines r.tasks targetPath)

/-- `MarkdownSerializer.moveTask`. -/
def moveTask (md : Str) (task : ParsedTask) (edit : TaskEdit) :
    Except SerializerError Str :=
  match edit.newPath with
  | none => .error .missingNewPath
  | some newPath =>
    match validateTargetPath md newPath with
    | .error e => .error e
    | .ok _ =>
      let eol := detectEol md
      let lines := splitLines md
      let taskLines0 := jsSlice lines (task.startLine - 1) task.endLine
      let taskLines1 := applyTitleChange taskLines0 edit.newTitle
      let taskLines2 := applyStatusChange taskLines1 edit.newStatus edit.doneStatuses
      let taskLines3 := applyMetadataChange taskLines2 edit.newMetadata (some task.metadata)
      let deleteCount := task.endLine - task.startLine + 1
      let lines2 := spliceRemove lines (task.startLine - 1) deleteCount
      let deletedMarkdown := joinLines lines2 eol
      match findInsertLineForNewPath deletedMarkdown newPath with
      | .error e => .error e
      | .ok insertLine =>
        let remainingLines := splitLines deletedMarkdown
        .ok (joinLines (spliceInsert remainingLines insertLine taskLines3) eol)

/-- The in-place branch of `MarkdownSerializer.updateTask` (no path change):
slice the task's line range, apply the three line-editor passes, splice the
rewritten lines back over the original range. -/
def updateTaskInPlace (md : Str) (task : ParsedTask) (edit : TaskEdit) :
    Except SerializerError Str :=
  let eol := detectEol md
  let lines := splitLines md
  let taskLines0 := jsSlice lines (task.startLine - 1) task.endLine
  let taskLines1 := applyTitleChange taskLines0 edit.newTitle
  let taskLines2 := applyStatusChange taskLines1 edit.newStatus edit.doneStatuses
  let taskLines3 := applyMetadataChange taskLines2 edit.newMetadata (some task.metadata)
  .ok (joinLines (spliceReplace lines (task.startLine - 1)
    (task.endLine - task.startLine + 1) taskLines3) eol)

/-- `MarkdownSerializer.updateTask`: a path change delegates to `moveTask`;
otherwise the task's line slice is rewritten in place. -/
def updateTask (md : Str) (task : ParsedTask) (edit : TaskEdit) :
    Except SerializerError Str :=
  match edit.newPath with
  | some p =>
    if !(p.equals task.path) then moveTask md task edit
    else updateTaskInPlace md task edit
  | none => updateTaskInPlace md task edit

/-- `MarkdownSerializer.deleteTask`. -/
def deleteTask (md : Str) (task : ParsedTask) : Except SerializerError Str :=
  let eol := detectEol md
  let lines := splitLines md
  let deleteCount := task.endLine - task.startLine + 1
  .ok (joinLines (spliceRemove lines (task.startLine - 1) deleteCount) eol)

/-- The metadata lines synthesized by `MarkdownSerializer.createTask` for the
non-`status`, non-empty entries. -/
def createMetadataLines (metadata : Option Metadata) : List Str :=
  match metadata with
  | none => []
  | some m =>
    (m.filter (fun kv => kv.1 ≠ ("status".toList) && kv.2 ≠ [])).map
      (fun kv => ("  - ".toList) ++ kv.1 ++ ':' :: ' ' :: kv.2)

/-- `MarkdownSerializer.createTask`. -/
def createTask (md : Str) (create : CreateTaskInfo) (doneStatuses : Option (List Str)) :
    Except SerializerError Str :=
  match parse md with
  | .error _ => .error .parseFailed
  | .ok r =>
    let eol := detectEol md
    let lines := splitLines md
    let isDone := (doneStatuses.map (·.contains create.status.value)).getD false
    let checkbox := if isDone then ['[', 'x', ']'] else ['[', ' ', ']']
    let taskLines :=
      ('-' :: ' ' :: checkbox ++ ' ' :: create.title) ::
        (("  - status: ".toList) ++ create.status.value) :: createMetadataLines create.metadata
    if create.path.isRoot then
      let rootTasks := r.tasks.filter (fun t => t.path.isRoot)
      let insertLine :=
        match rootTasks.getLast? with
        | some lastTask => lastTask.endLine
        | none =>
          match findFirstHeadingLine lines with
          | some h => h
          | none => lines.length
      .ok (joinLines (spliceInsert lines insertLine taskLines) eol)
    else
      if r.headings.any (fun h => h.equals create.path) then
        let pathTasks := r.tasks.filter (fun t => t.path.equals create.path)
        let insertLine :=
          match pathTasks.getLast? with
          | some lastTask => lastTask.endLine
          | none => findInsertLineForPath lines create.path
        .ok (joinLines (spliceInsert lines insertLine taskLines) eol)
      else .error (.headingNotFound create.path)

/-- `MarkdownSerializer.applyEdit`. -/
def applyEdit (md : Str) (edit : TaskEdit) : Except SerializerError Str :=
  match edit.create with
  | some c => createTask md c edit.doneStatuses
  | none =>
    match edit.taskId with
    | none => .error .missingTaskId
    | some taskId =>
      match parse md with
      | .error _ => .error .parseFailed
      | .ok r =>
        match r.tasks.find? (fun t => t.id = taskId) with
        | none => .error (.taskNotFound taskId)
        | some task =>
          if edit.del then deleteTask md task
          else updateTask md task edit

/-!
Predicates for the line-ending claims.
-/

/-- Every CR in the text is immediately followed by LF (no stray CR). -/
def pairedCR : Str → Bool
  | [] => true
  | c :: rest =>
    if c = '\r' then
      match rest with
      | '\n' :: rest2 => pairedCR rest2
      | _ => false
    else pairedCR rest

/-- Every LF in the text is immediately preceded by CR (no bare LF). -/
def pairedLF : Str → Bool
  | [] => true
  | c :: rest =>
    if c = '\n' then false
    else if c = '\r' then
      match rest with
      | '\n' :: rest2 => pairedLF rest2
      | [] => true
      | c2 :: rest2 => pairedLF (c2 :: rest2)
    else pairedLF rest

/-- The text contains no CR at all. -/
def noCR (s : Str) : Bool := s.all (· ≠ '\r')

/-- A line is clean when it contains neither LF nor CR (exactly the
`.`-compatible characters). -/
def cleanLine (l : Str) : Bool := l.all dotOk

/-- All string fields an edit can write into the document are free of line
terminators. -/
def editClean (edit : TaskEdit) : Bool :=
  (match edit.newTitle with | some t => cleanLine t | none => true) &&
  (match edit.newStatus with | some s => cleanLine s.value | none => true) &&
  (match edit.newMetadata with
   | some m => m.all (fun kv => cleanLine kv.1 && cleanLine kv.2)
   | none => true) &&
  (match edit.create with
   | some c =>
     cleanLine c.title && cleanLine c.status.value &&
       (match c.metadata with
        | some m => m.all (fun kv => cleanLine kv.1 && cleanLine kv.2)
        | none => true)
   | none => true)

/-- Remove the top-level blockquote and code nodes from a node sequence
(the nodes `walkNodes` skips without descending). -/
def eraseOpaque : MdNodes → MdNodes
  | .nil => .nil
  | .cons n rest =>
    match n with
    | .blockquote _ _ => eraseOpaque rest
    | .code _ _ => eraseOpaque rest
    | _ => .cons n (eraseOpaque rest)

/-- The end line of the last list node among an item's children, when one
exists: the value `extractTask`'s loop leaves in its `endLine` accumulator. -/
def lastListEnd : MdNodes → Option Nat
  | .nil => none
  | .cons n rest =>
    match lastListEnd rest with
    | some e => some e
    | none =>
      match n with
      | .list _ _ le => some le
      | _ => none

/-- Strictly increasing heading levels, the invariant of the heading
stack. -/
def stackIncreasing (st : HeadingStack) : Prop :=
  List.Pairwise (fun a b => a.level < b.level) st

instance (st : HeadingStack) : Decidable (stackIncreasing st) := by
  unfold stackIncreasing; infer_instance

/-- All lines of a list are clean. -/
def cleanLs (ls : List Str) : Prop := ∀ l ∈ ls, cleanLine l = true

/-- A canonical metadata key: non-empty, colon-free, first character not
whitespace — the shape of the keys the parser itself produces (it splits at
the first colon and trims). -/
def keyOk : Str → Bool
  | [] => false
  | c :: rest => !isJsWs c && (c :: rest).all (fun x => x ≠ ':')

/-- A canonical metadata or title value: non-empty, first character not
whitespace, no line terminators — the shape the parser itself produces. -/
def valOk : Str → Bool
  | [] => false
  | c :: rest => !isJsWs c && (c :: rest).all dotOk

/-- The canonical child line the serializer itself writes for a metadata
entry (two-space indent, dash, `key: value`); a status line is the instance
with key `status`. -/
def metaLine (kv : Str × Str) : Str := ("  - ".toList) ++ kv.1 ++ ':' :: ' ' :: kv.2

/-- The canonical checkbox line the serializer itself writes (no indent,
single spaces, marker `b` one of blank, `x`, `X`). -/
def checkboxLine (b : Char) (title : Str) : Str :=
  '-' :: ' ' :: '[' :: b :: ']' :: ' ' :: title

/-!
Lemmas about the EOL utility.
-/

theorem consFirst_ne_nil (c : Char) (xs : List Str) : consFirst c xs ≠ [] := by
  cases xs <;> simp [consFirst]

theorem splitLines_ne_nil (s : Str) : splitLines s ≠ [] := by
  match s with
  | [] => simp [splitLines]
  | c :: rest =>
    rw [splitLines.eq_def]
    repeat' split
    all_goals try exact consFirst_ne_nil _ _
    all_goals simp

theorem joinLines_cons_of_ne_nil (l : Str) (ls : List Str) (sep : Str) (h : ls ≠ []) :
    joinLines (l :: ls) sep = l ++ sep ++ joinLines ls sep := by
  match ls with
  | [] => exact absurd rfl h
  | x :: xs => rfl

theorem joinLines_consFirst (c : Char) (xs : List Str) (sep : Str) (h : xs ≠ []) :
    joinLines (consFirst c xs) sep = c :: joinLines xs sep := by
  match xs with
  | [] => exact absurd rfl h
  | l :: ls =>
    match ls with
    | [] => rfl
    | y :: ys => simp [consFirst, joinLines]

theorem pairedCR_cons_of_ne (c : Char) (rest : Str) (h : c ≠ '\r') :
    pairedCR (c :: rest) = pairedCR rest := by
  rw [pairedCR.eq_def]; simp [h]

theorem pairedCR_crlf_cons (rest : Str) : pairedCR ('\r' :: '\n' :: rest) = pairedCR rest := rfl

theorem pairedLF_cons_of_ne (c : Char) (rest : Str) (h1 : c ≠ '\n') (h2 : c ≠ '\r') :
    pairedLF (c :: rest) = pairedLF rest := by
  rw [pairedLF.eq_def]
  simp only [h1, h2, if_false, reduceIte]

theorem pairedLF_crlf_cons (rest : Str) : pairedLF ('\r' :: '\n' :: rest) = pairedLF rest := rfl

theorem dotOk_ne (c : Char) (h : dotOk c = true) : c ≠ '\n' ∧ c ≠ '\r' := by
  simpa [dotOk] using h

theorem cleanLine_cons (c : Char) (l : Str) (h : cleanLine (c :: l) = true) :
    dotOk c = true ∧ cleanLine l = true := by
  simpa [cleanLine] using h

theorem pairedCR_append_clean :
    ∀ (a : Str), cleanLine a = true → ∀ b, pairedCR (a ++ b) = pairedCR b
  | [], _, b => rfl
  | c :: a', h, b => by
    obtain ⟨hc, ha⟩ := cleanLine_cons c a' h
    obtain ⟨_, hcr⟩ := dotOk_ne c hc
    rw [List.cons_append, pairedCR_cons_of_ne c _ hcr, pairedCR_append_clean a' ha b]

theorem pairedLF_append_clean :
    ∀ (a : Str), cleanLine a = true → ∀ b, pairedLF (a ++ b) = pairedLF b
  | [], _, b => rfl
  | c :: a', h, b => by
    obtain ⟨hc, ha⟩ := cleanLine_cons c a' h
    obtain ⟨hlf, hcr⟩ := dotOk_ne c hc
    rw [List.cons_append, pairedLF_cons_of_ne c _ hlf hcr, pairedLF_append_clean a' ha b]

theorem pairedCR_of_clean (a : Str) (h : cleanLine a = true) : pairedCR a = true := by
  have := pairedCR_append_clean a h []
  simpa using this

theorem pairedLF_of_clean (a : Str) (h : cleanLine a = true) : pairedLF a = true := by
  have := pairedLF_append_clean a h []
  simpa using this

theorem cleanLs_cons (l : Str) (ls : List Str) (hl : cleanLine l = true) (hls : cleanLs ls) :
    cleanLs (l :: ls) := by
  intro x hx
  rcases List.mem_cons.mp hx with h | h
  · exact h ▸ hl
  · exact hls x h

theorem joinLines_clean_crlf :
    ∀ ls : List Str, cleanLs ls →
      pairedCR (joinLines ls ['\r', '\n']) = true ∧ pairedLF (joinLines ls ['\r', '\n']) = true
  | [], _ => ⟨rfl, rfl⟩
  | [l], h => by
    have hl : cleanLine l = true := h l (List.mem_singleton.mpr rfl)
    exact ⟨pairedCR_of_clean l hl, pairedLF_of_clean l hl⟩
  | l :: l2 :: ls, h => by
    have hl : cleanLine l = true := h l (List.mem_cons_self _ _)
    have hrest : cleanLs (l2 :: ls) := fun x hx => h x (List.mem_cons_of_mem _ hx)
    obtain ⟨ih1, ih2⟩ := joinLines_clean_crlf (l2 :: ls) hrest
    rw [joinLines_cons_of_ne_nil l (l2 :: ls) _ (by simp)]
    constructor
    · rw [List.append_assoc, pairedCR_append_clean l hl, List.cons_append, List.cons_append,
        pairedCR_crlf_cons]
      simpa using ih1
    · rw [List.append_assoc, pairedLF_append_clean l hl, List.cons_append, List.cons_append,
        pairedLF_crlf_cons]
      simpa using ih2

theorem noCR_append (a b : Str) : noCR (a ++ b) = (noCR a && noCR b) := by
  simp [noCR, List.all_append]

theorem noCR_of_clean (a : Str) (h : cleanLine a = true) : noCR a = true := by
  simp only [cleanLine, List.all_eq_true] at h
  simp only [noCR, List.all_eq_true]
  intro c hc
  have := dotOk_ne c (h c hc)
  simpa using this.2

theorem joinLines_clean_lf :
    ∀ ls : List Str, cleanLs ls → noCR (joinLines ls ['\n']) = true
  | [], _ => rfl
  | [l], h => noCR_of_clean l (h l (List.mem_singleton.mpr rfl))
  | l :: l2 :: ls, h => by
    have hl : cleanLine l = true := h l (List.mem_cons_self _ _)
    have hrest : cleanLs (l2 :: ls) := fun x hx => h x (List.mem_cons_of_mem _ hx)
    have ih := joinLines_clean_lf (l2 :: ls) hrest
    rw [joinLines_cons_of_ne_nil l (l2 :: ls) _ (by simp), List.append_assoc, noCR_append]
    simp only [noCR_of_clean l hl, Bool.true_and]
    simpa [noCR] using ih

theorem cleanLs_consFirst (c : Char) (xs : List Str) (hc : dotOk c = true)
    (hxs : cleanLs xs) : cleanLs (consFirst c xs) := by
  match xs with
  | [] =>
    intro x hx
    simp only [consFirst, List.mem_singleton] at hx
    subst hx
    simp [cleanLine, hc]
  | l :: ls =>
    intro x hx
    simp only [consFirst, List.mem_cons] at hx
    rcases hx with h | h
    · subst h
      have hl : cleanLine l = true := hxs l (List.mem_cons_self _ _)
      simp [cleanLine, hc, List.all_eq_true] at hl ⊢
      exact fun a ha => hl a ha
    · exact hxs x (List.mem_cons_of_mem _ h)

theorem pairedCR_cr_cons_ne (c2 : Char) (rest2 : Str) (h : c2 ≠ '\n') :
    pairedCR ('\r' :: c2 :: rest2) = false := by
  rw [pairedCR.eq_def]
  simp only [reduceIte]
  split
  · rename_i heq
    exfalso
    injection heq with ha hb
    exact h ha
  · rfl

theorem splitLines_clean : ∀ s : Str, pairedCR s = true → cleanLs (splitLines s)
  | [], _ => by
    intro l hl
    simp only [splitLines, List.mem_singleton] at hl
    subst hl
    rfl
  | c :: rest, h => by
    rw [splitLines.eq_def]
    by_cases h1 : c = '\n'
    · subst h1
      have hrest : pairedCR rest = true := by
        rwa [pairedCR_cons_of_ne _ _ (by decide)] at h
      simp only [reduceIte]
      exact cleanLs_cons [] _ rfl (splitLines_clean rest hrest)
    · by_cases h2 : c = '\r'
      · subst h2
        cases rest with
        | nil => exact absurd h (by decide)
        | cons c2 rest2 =>
          by_cases hc2 : c2 = '\n'
          · subst hc2
            have hrest : pairedCR rest2 = true := by rwa [pairedCR_crlf_cons] at h
            simp only [h1, reduceIte]
            exact cleanLs_cons [] _ rfl (splitLines_clean rest2 hrest)
          · rw [pairedCR_cr_cons_ne c2 rest2 hc2] at h
            exact absurd h (by decide)
      · have hrest : pairedCR rest = true := by
          rwa [pairedCR_cons_of_ne _ _ h2] at h
        simp only [h1, h2, reduceIte]
        exact cleanLs_consFirst c _ (by simp [dotOk, h1, h2]) (splitLines_clean rest hrest)

theorem noCR_cons (c : Char) (rest : Str) :
    noCR (c :: rest) = (decide (c ≠ '\r') && noCR rest) := by
  simp [noCR]

theorem noCR_pairedCR : ∀ s : Str, noCR s = true → pairedCR s = true
  | [], _ => rfl
  | c :: rest, h => by
    rw [noCR_cons] at h
    obtain ⟨h1, h2⟩ := Bool.and_eq_true_iff.mp h
    rw [pairedCR_cons_of_ne c rest (by simpa using h1)]
    exact noCR_pairedCR rest h2

theorem noCR_no_crlf : ∀ s : Str, noCR s = true → containsSub s ['\r', '\n'] = false
  | [], _ => rfl
  | c :: rest, h => by
    rw [noCR_cons] at h
    obtain ⟨h1, h2⟩ := Bool.and_eq_true_iff.mp h
    have hc : c ≠ '\r' := by simpa using h1
    rw [containsSub]
    have hpre : List.isPrefixOf ['\r', '\n'] (c :: rest) = false := by
      simp only [List.isPrefixOf, Bool.and_eq_false_iff]
      left
      exact beq_eq_false_iff_ne.mpr (Ne.symm hc)
    rw [hpre, noCR_no_crlf rest h2]
    rfl

theorem pairedCR_not_crlf_noCR :
    ∀ s : Str, pairedCR s = true → containsSub s ['\r', '\n'] = false → noCR s = true
  | [], _, _ => rfl
  | c :: rest, hp, hc => by
    rw [containsSub] at hc
    simp only [Bool.or_eq_false_iff] at hc
    by_cases h2 : c = '\r'
    · subst h2
      exfalso
      cases rest with
      | nil => exact absurd hp (by decide)
      | cons c2 rest2 =>
        by_cases hc2 : c2 = '\n'
        · subst hc2
          have : List.isPrefixOf ['\r', '\n'] ('\r' :: '\n' :: rest2) = true := by
            simp [List.isPrefixOf]
          rw [this] at hc
          exact absurd hc.1 (by decide)
        · rw [pairedCR_cr_cons_ne c2 rest2 hc2] at hp
          exact absurd hp (by decide)
    · rw [noCR_cons]
      refine Bool.and_eq_true_iff.mpr ⟨by simpa using h2, ?_⟩
      rw [pairedCR_cons_of_ne c rest h2] at hp
      exact pairedCR_not_crlf_noCR rest hp hc.2

theorem detectEol_cases (t : Str) :
    detectEol t = ['\n'] ∨ detectEol t = ['\r', '\n'] := by
  unfold detectEol
  split <;> simp

theorem detectEol_of_crlf (t : Str) (h : containsSub t ['\r', '\n'] = true) :
    detectEol t = ['\r', '\n'] := by
  simp [detectEol, h]

theorem detectEol_of_no_crlf (t : Str) (h : containsSub t ['\r', '\n'] = false) :
    detectEol t = ['\n'] := by
  simp [detectEol, h]

theorem joinLines_splitLines_lf : ∀ s : Str, noCR s = true →
    joinLines (splitLines s) ['\n'] = s
  | [], _ => rfl
  | c :: rest, h => by
    rw [noCR_cons] at h
    obtain ⟨h1, h2⟩ := Bool.and_eq_true_iff.mp h
    have hcr : c ≠ '\r' := by simpa using h1
    have ih := joinLines_splitLines_lf rest h2
    rw [splitLines.eq_def]
    by_cases hn : c = '\n'
    · subst hn
      simp only [reduceIte]
      rw [joinLines_cons_of_ne_nil [] _ _ (splitLines_ne_nil rest), List.nil_append, ih]
      rfl
    · simp only [hn, hcr, reduceIte]
      rw [joinLines_consFirst c _ _ (splitLines_ne_nil rest), ih]

theorem joinLines_splitLines_crlf : ∀ s : Str, pairedCR s = true → pairedLF s = true →
    joinLines (splitLines s) ['\r', '\n'] = s
  | [], _, _ => rfl
  | c :: rest, hcr, hlf => by
    rw [splitLines.eq_def]
    by_cases hn : c = '\n'
    · subst hn
      exfalso
      rw [pairedLF.eq_def] at hlf
      simp at hlf
    · by_cases hr : c = '\r'
      · subst hr
        cases rest with
        | nil => exact absurd hcr (by decide)
        | cons c2 rest2 =>
          by_cases hc2 : c2 = '\n'
          · subst hc2
            have hcr2 : pairedCR rest2 = true := by rwa [pairedCR_crlf_cons] at hcr
            have hlf2 : pairedLF rest2 = true := by rwa [pairedLF_crlf_cons] at hlf
            have ih := joinLines_splitLines_crlf rest2 hcr2 hlf2
            simp only [hn, reduceIte]
            rw [joinLines_cons_of_ne_nil [] _ _ (splitLines_ne_nil rest2), List.nil_append, ih]
            rfl
          · rw [pairedCR_cr_cons_ne c2 rest2 hc2] at hcr
            exact absurd hcr (by decide)
      · have hcr2 : pairedCR rest = true := by rwa [pairedCR_cons_of_ne c rest hr] at hcr
        have hlf2 : pairedLF rest = true := by rwa [pairedLF_cons_of_ne c rest hn hr] at hlf
        have ih := joinLines_splitLines_crlf rest hcr2 hlf2
        simp only [hn, hr, reduceIte]
        rw [joinLines_consFirst c _ _ (splitLines_ne_nil rest), ih]

/-- The EOL pipeline identity: on a document with uniform line endings,
detect, split and join reproduce the document byte for byte. -/
theorem joinLines_splitLines_detect (s : Str)
    (h : noCR s = true ∨ (pairedCR s = true ∧ pairedLF s = true)) :
    joinLines (splitLines s) (detectEol s) = s := by
  rcases h with h | ⟨hcr, hlf⟩
  · rw [detectEol_of_no_crlf s (noCR_no_crlf s h)]
    exact joinLines_splitLines_lf s h
  · by_cases hc : containsSub s ['\r', '\n'] = true
    · rw [detectEol_of_crlf s hc]
      exact joinLines_splitLines_crlf s hcr hlf
    · have hn : noCR s = true :=
        pairedCR_not_crlf_noCR s hcr (Bool.eq_false_iff.mpr hc ▸ rfl)
      rw [detectEol_of_no_crlf s (noCR_no_crlf s hn)]
      exact joinLines_splitLines_lf s hn

/-!
Cleanliness preservation through the line-editing operations: every list
operation of the serializer and the line editor maps clean lines (and clean
edit fields) to clean lines.
-/

theorem cleanLs_of_sub {a b : List Str} (h : a ⊆ b) (hb : cleanLs b) : cleanLs a :=
  fun l hl => hb l (h hl)

theorem cleanLs_append {a b : List Str} (ha : cleanLs a) (hb : cleanLs b) :
    cleanLs (a ++ b) := by
  intro l hl
  rcases List.mem_append.mp hl with h | h
  · exact ha l h
  · exact hb l h

theorem cleanLs_spliceRemove {ls : List Str} (h : cleanLs ls) (s c : Nat) :
    cleanLs (spliceRemove ls s c) :=
  cleanLs_append (cleanLs_of_sub (List.take_subset _ _) h)
    (cleanLs_of_sub (List.drop_subset _ _) h)

theorem cleanLs_spliceInsert {ls items : List Str} (h : cleanLs ls) (hi : cleanLs items)
    (s : Nat) : cleanLs (spliceInsert ls s items) :=
  cleanLs_append (cleanLs_append (cleanLs_of_sub (List.take_subset _ _) h) hi)
    (cleanLs_of_sub (List.drop_subset _ _) h)

theorem cleanLs_spliceReplace {ls items : List Str} (h : cleanLs ls) (hi : cleanLs items)
    (s c : Nat) : cleanLs (spliceReplace ls s c items) :=
  cleanLs_append (cleanLs_append (cleanLs_of_sub (List.take_subset _ _) h) hi)
    (cleanLs_of_sub (List.drop_subset _ _) h)

theorem cleanLs_jsSlice {ls : List Str} (h : cleanLs ls) (a b : Nat) :
    cleanLs (jsSlice ls a b) :=
  cleanLs_of_sub (fun l hl => (List.drop_subset _ _) ((List.take_subset _ _) hl)) h

theorem cleanLine_getD {ls : List Str} (h : cleanLs ls) (n : Nat) :
    cleanLine (ls.getD n []) = true := by
  match ls, n with
  | [], _ => rfl
  | l :: rest, 0 => exact h l (List.mem_cons_self _ _)
  | _l :: rest, n + 1 =>
    exact cleanLine_getD (fun x hx => h x (List.mem_cons_of_mem _ hx)) n

theorem cleanLine_of_append_left {a b : Str} (h : cleanLine (a ++ b) = true) :
    cleanLine a = true := by
  simp only [cleanLine, List.all_append, Bool.and_eq_true] at h
  exact h.1

theorem cleanLine_append {a b : Str} (ha : cleanLine a = true) (hb : cleanLine b = true) :
    cleanLine (a ++ b) = true := by
  simp [cleanLine, List.all_append, ha, hb]
  constructor
  · simpa [cleanLine] using ha
  · simpa [cleanLine] using hb

theorem cleanLine_cons_of (c : Char) (l : Str) (hc : dotOk c = true)
    (hl : cleanLine l = true) : cleanLine (c :: l) = true := by
  simp only [cleanLine, List.all_cons, Bool.and_eq_true]
  exact ⟨hc, by simpa [cleanLine] using hl⟩

theorem cleanLine_takeWhile {l : Str} (p : Char → Bool) (h : cleanLine l = true) :
    cleanLine (l.takeWhile p) = true := by
  simp only [cleanLine, List.all_eq_true] at h ⊢
  intro c hc
  exact h c ((List.takeWhile_sublist p).subset hc)

theorem cleanLine_drop {l : Str} (n : Nat) (h : cleanLine l = true) :
    cleanLine (l.drop n) = true := by
  simp only [cleanLine, List.all_eq_true] at h ⊢
  intro c hc
  exact h c (List.drop_subset _ _ hc)

theorem matchWsTail_reconstruct {ws tail wsf g2 : Str}
    (h : matchWsTail ws tail = some (wsf, g2)) : wsf ++ g2 = ws ++ tail := by
  unfold matchWsTail at h
  by_cases ht : tail = []
  · subst ht
    rw [if_neg (by simp)] at h
    split at h
    case _ c hlast =>
      by_cases hc : dotOk c = true
      · rw [if_pos hc] at h
        injection h with h2
        injection h2 with ha hb
        subst ha; subst hb
        rw [List.append_nil]
        exact List.dropLast_append_getLast? c (Option.mem_def.mpr hlast)
      · rw [if_neg hc] at h
        exact absurd h (by simp)
    case _ => exact absurd h (by simp)
  · rw [if_pos ht] at h
    by_cases hall : tail.all dotOk = true
    · rw [if_pos hall] at h
      injection h with h2
      injection h2 with ha hb
      subst ha; subst hb
      rfl
    · rw [if_neg hall] at h
      exact absurd h (by simp)

theorem matchCheckboxTitle_reconstruct {l g1 g2 : Str}
    (h : matchCheckboxTitle l = some (g1, g2)) : g1 ++ g2 = l := by
  unfold matchCheckboxTitle at h
  split at h
  case _ r2 heq1 =>
    split at h
    case _ b r4 heq2 =>
      split at h
      · split at h
        case _ ws3f gg heq3 =>
          injection h with h2
          injection h2 with ha hb
          have h4 : ws3f ++ gg = r4 := by
            rw [matchWsTail_reconstruct heq3, List.takeWhile_append_dropWhile]
          rw [← ha, ← hb]
          have hshuffle :
              (l.takeWhile isJsWs ++ '-' :: r2.takeWhile isJsWs ++ '[' :: b :: ']' :: ws3f)
                  ++ gg
                = l.takeWhile isJsWs ++
                    '-' :: (r2.takeWhile isJsWs ++ ('[' :: b :: ']' :: (ws3f ++ gg))) := by
            simp
          rw [hshuffle, h4, ← heq2, List.takeWhile_append_dropWhile, ← heq1,
            List.takeWhile_append_dropWhile]
        · exact absurd h (by simp)
      · exact absurd h (by simp)
    all_goals exact absurd h (by simp)
  all_goals exact absurd h (by simp)

theorem cleanLs_set {ls : List Str} {x : Str} (h : cleanLs ls) (hx : cleanLine x = true)
    (i : Nat) : cleanLs (ls.set i x) := by
  intro l hl
  rcases List.mem_or_eq_of_mem_set hl with hm | he
  · exact h l hm
  · exact he ▸ hx

theorem cleanLine_replaceFirstIn :
    ∀ s : Str, ∀ pats : List Str, ∀ repl : Str, cleanLine s = true → cleanLine repl = true →
      cleanLine (replaceFirstIn s pats repl) = true
  | [], pats, repl, _, _ => rfl
  | c :: rest, pats, repl, hs, hr => by
    rw [replaceFirstIn]
    obtain ⟨hc, hrest⟩ := cleanLine_cons c rest hs
    cases hfind : pats.find? (fun p => p.isPrefixOf (c :: rest)) with
    | some p => exact cleanLine_append hr (cleanLine_drop _ hs)
    | none =>
      have := cleanLine_replaceFirstIn rest pats repl hrest hr
      simp only [cleanLine, List.all_cons, Bool.and_eq_true]
      exact ⟨hc, by simpa [cleanLine] using this⟩

theorem mdLookup_clean {m : Metadata} (k : Str)
    (h : ∀ kv ∈ m, cleanLine kv.2 = true) :
    cleanLine ((mdLookup m k).getD []) = true := by
  unfold mdLookup
  cases hf : m.find? (fun kv => kv.1 = k) with
  | none => rfl
  | some kv => exact h kv (List.mem_of_find?_eq_some hf)

theorem applyTitleChange_clean {tl : List Str} {nt : Option Str} (h : cleanLs tl)
    (hnt : ∀ t, nt = some t → cleanLine t = true) :
    cleanLs (applyTitleChange tl nt) := by
  unfold applyTitleChange
  cases nt with
  | none => exact h
  | some t =>
    by_cases h0 : t = []
    · simp only [h0, reduceIte]
      exact h
    · simp only [h0, reduceIte]
      match tl with
      | [] => exact h
      | l0 :: rest =>
        cases hm : matchCheckboxTitle l0 with
        | none => simp only [hm]; exact h
        | some g =>
          match g with
          | (g1, g2) =>
            simp only [hm]
            have hl0 : cleanLine l0 = true := h l0 (List.mem_cons_self _ _)
            have hg1 : cleanLine g1 = true := by
              have := matchCheckboxTitle_reconstruct hm
              exact cleanLine_of_append_left (this ▸ hl0)
            exact cleanLs_cons _ _
              (cleanLine_append hg1 (hnt t rfl))
              (fun x hx => h x (List.mem_cons_of_mem _ hx))

theorem leadingWs_clean {l : Str} (h : cleanLine l = true) :
    cleanLine (leadingWs l) = true :=
  cleanLine_takeWhile isJsWs h

theorem applyCheckboxFlip_clean {tl : List Str} (h : cleanLs tl) (isDone : Bool) :
    cleanLs (applyCheckboxFlip tl isDone) := by
  match tl with
  | [] => exact h
  | l0 :: rest =>
    have hl0 : cleanLine l0 = true := h l0 (List.mem_cons_self _ _)
    have hrest : cleanLs rest := fun x hx => h x (List.mem_cons_of_mem _ hx)
    show cleanLs (if isDone then replaceFirstIn l0 [['[', ' ', ']']] (['[', 'x', ']']) :: rest
      else replaceFirstIn l0 [['[', 'x', ']'], ['[', 'X', ']']] (['[', ' ', ']']) :: rest)
    split
    · exact cleanLs_cons _ _ (cleanLine_replaceFirstIn l0 _ _ hl0 (by decide)) hrest
    · exact cleanLs_cons _ _ (cleanLine_replaceFirstIn l0 _ _ hl0 (by decide)) hrest

theorem applyStatusLine_clean {tl : List Str} {v : Str} (h : cleanLs tl)
    (hv : cleanLine v = true) : cleanLs (applyStatusLine tl v) := by
  unfold applyStatusLine
  split
  · refine cleanLs_set h ?_ _
    exact cleanLine_append (cleanLine_append (leadingWs_clean (cleanLine_getD h _))
      (by decide)) hv
  · refine cleanLs_spliceInsert h ?_ _
    intro x hx
    rcases List.mem_singleton.mp hx with rfl
    exact cleanLine_append (by decide) hv

theorem applyStatusChange_clean {tl : List Str} {ns : Option Status}
    {ds : Option (List Str)} (h : cleanLs tl)
    (hns : ∀ st, ns = some st → cleanLine st.value = true) :
    cleanLs (applyStatusChange tl ns ds) := by
  unfold applyStatusChange
  cases ns with
  | none => exact h
  | some st =>
    exact applyStatusLine_clean (applyCheckboxFlip_clean h _) (hns st rfl)

theorem applyOneMetadata_clean {tl : List Str} {key value : Str} (h : cleanLs tl)
    (hk : cleanLine key = true) (hv : cleanLine value = true) :
    cleanLs (applyOneMetadata tl key value) := by
  unfold applyOneMetadata
  by_cases h0 : value = []
  · simp only [h0, reduceIte]
    split
    · exact cleanLs_spliceRemove h _ _
    · exact h
  · simp only [h0, reduceIte]
    have hnew : cleanLine ((if 1 < tl.length then leadingWs (tl.getD 1 []) else ("  ".toList))
        ++ '-' :: ' ' :: key ++ ':' :: ' ' :: value) = true := by
      refine cleanLine_append (cleanLine_append ?_ ?_) ?_
      · split
        · exact leadingWs_clean (cleanLine_getD h _)
        · decide
      · exact cleanLine_cons_of '-' _ (by decide) (cleanLine_cons_of ' ' _ (by decide) hk)
      · exact cleanLine_cons_of ':' _ (by decide) (cleanLine_cons_of ' ' _ (by decide) hv)
    split
    · exact cleanLs_set h hnew _
    · refine cleanLs_spliceInsert h ?_ _
      intro x hx
      rcases List.mem_singleton.mp hx with rfl
      exact hnew

theorem removeDeletedKeys_clean :
    ∀ ks : List Str, ∀ {tl : List Str}, cleanLs tl → cleanLs (removeDeletedKeys tl ks)
  | [], _, h => h
  | k :: ks, tl, h => by
    rw [removeDeletedKeys]
    have : cleanLs (match findMetadataLineIndex tl k with
        | some i => spliceRemove tl i 1
        | none => tl) := by
      split
      · exact cleanLs_spliceRemove h _ _
      · exact h
    exact removeDeletedKeys_clean ks this

theorem applyMetadataKeys_clean :
    ∀ ks : List Str, ∀ {tl : List Str} {newMd : Metadata}, cleanLs tl →
      (∀ k ∈ ks, cleanLine k = true) →
      (∀ kv ∈ newMd, cleanLine kv.2 = true) →
      cleanLs (applyMetadataKeys tl newMd ks)
  | [], _, _, h, _, _ => h
  | k :: ks, tl, newMd, h, hks, hvals => by
    rw [applyMetadataKeys]
    refine applyMetadataKeys_clean ks ?_ (fun x hx => hks x (List.mem_cons_of_mem _ hx)) hvals
    exact applyOneMetadata_clean h (hks k (List.mem_cons_self _ _)) (mdLookup_clean k hvals)

theorem applyMetadataChange_clean {tl : List Str} {nm om : Option Metadata}
    (h : cleanLs tl)
    (hnm : ∀ m, nm = some m → ∀ kv ∈ m, cleanLine kv.1 = true ∧ cleanLine kv.2 = true) :
    cleanLs (applyMetadataChange tl nm om) := by
  unfold applyMetadataChange
  cases nm with
  | none => exact h
  | some m =>
    have hkeys : ∀ k ∈ (mdKeys m).filter (· ≠ ("status".toList)), cleanLine k = true := by
      intro k hk
      have hk2 := List.mem_of_mem_filter hk
      simp only [mdKeys, List.mem_map] at hk2
      obtain ⟨kv, hkv, hkeq⟩ := hk2
      exact hkeq ▸ (hnm m rfl kv hkv).1
    have hvals : ∀ kv ∈ m, cleanLine kv.2 = true := fun kv hkv => (hnm m rfl kv hkv).2
    exact applyMetadataKeys_clean _ (removeDeletedKeys_clean _ h) hkeys hvals

theorem createMetadataLines_clean {md : Option Metadata}
    (h : ∀ m, md = some m → ∀ kv ∈ m, cleanLine kv.1 = true ∧ cleanLine kv.2 = true) :
    cleanLs (createMetadataLines md) := by
  unfold createMetadataLines
  cases md with
  | none => intro l hl; simp at hl
  | some m =>
    intro l hl
    simp only [List.mem_map] at hl
    obtain ⟨kv, hkv, hleq⟩ := hl
    have hkv2 := h m rfl kv (List.mem_of_mem_filter hkv)
    subst hleq
    refine cleanLine_append (cleanLine_append (by decide) hkv2.1) ?_
    exact cleanLine_cons_of ':' _ (by decide) (cleanLine_cons_of ' ' _ (by decide) hkv2.2)

theorem pairedCR_joinLines_eol {ls : List Str} (h : cleanLs ls) {eol : Str}
    (he : eol = ['\n'] ∨ eol = ['\r', '\n']) :
    pairedCR (joinLines ls eol) = true := by
  rcases he with he | he
  · subst he
    exact noCR_pairedCR _ (joinLines_clean_lf ls h)
  · subst he
    exact (joinLines_clean_crlf ls h).1

theorem editClean_fields {edit : TaskEdit} (h : editClean edit = true) :
    (∀ t, edit.newTitle = some t → cleanLine t = true) ∧
    (∀ st, edit.newStatus = some st → cleanLine st.value = true) ∧
    (∀ m, edit.newMetadata = some m →
      ∀ kv ∈ m, cleanLine kv.1 = true ∧ cleanLine kv.2 = true) ∧
    (∀ c, edit.create = some c → cleanLine c.title = true ∧ cleanLine c.status.value = true ∧
      (∀ m, c.metadata = some m →
        ∀ kv ∈ m, cleanLine kv.1 = true ∧ cleanLine kv.2 = true)) := by
  unfold editClean at h
  simp only [Bool.and_eq_true] at h
  obtain ⟨⟨⟨ht, hs⟩, hm⟩, hc⟩ := h
  refine ⟨?_, ?_, ?_, ?_⟩
  · intro t hteq
    rw [hteq] at ht
    exact ht
  · intro st hseq
    rw [hseq] at hs
    exact hs
  · intro m hmeq kv hkv
    rw [hmeq] at hm
    have := (List.all_eq_true.mp hm) kv hkv
    simpa [Bool.and_eq_true] using this
  · intro c hceq
    rw [hceq] at hc
    simp only [Bool.and_eq_true] at hc
    refine ⟨hc.1.1, hc.1.2, ?_⟩
    intro m hmeq kv hkv
    rw [hmeq] at hc
    have := (List.all_eq_true.mp hc.2) kv hkv
    simpa [Bool.and_eq_true] using this

theorem updateTaskInPlace_clean {md : Str} {task : ParsedTask} {edit : TaskEdit} {out : Str}
    (hmd : pairedCR md = true) (hec : editClean edit = true)
    (h : updateTaskInPlace md task edit = .ok out) :
    ∃ ls, out = joinLines ls (detectEol md) ∧ cleanLs ls := by
  obtain ⟨h1, h2, h3, _⟩ := editClean_fields hec
  unfold updateTaskInPlace at h
  simp only [Except.ok.injEq] at h
  refine ⟨_, h.symm, ?_⟩
  refine cleanLs_spliceReplace ?_ ?_ _ _
  · exact splitLines_clean md hmd
  · exact applyMetadataChange_clean
      (applyStatusChange_clean
        (applyTitleChange_clean (cleanLs_jsSlice (splitLines_clean md hmd) _ _) h1) h2) h3

theorem deleteTask_clean {md : Str} {task : ParsedTask} {out : Str}
    (hmd : pairedCR md = true) (h : deleteTask md task = .ok out) :
    ∃ ls, out = joinLines ls (detectEol md) ∧ cleanLs ls := by
  unfold deleteTask at h
  simp only [Except.ok.injEq] at h
  exact ⟨_, h.symm, cleanLs_spliceRemove (splitLines_clean md hmd) _ _⟩

theorem createTask_clean {md : Str} {c : CreateTaskInfo} {ds : Option (List Str)} {out : Str}
    (hmd : pairedCR md = true) (htitle : cleanLine c.title = true)
    (hstatus : cleanLine c.status.value = true)
    (hmeta : ∀ m, c.metadata = some m →
      ∀ kv ∈ m, cleanLine kv.1 = true ∧ cleanLine kv.2 = true)
    (h : createTask md c ds = .ok out) :
    ∃ ls, out = joinLines ls (detectEol md) ∧ cleanLs ls := by
  unfold createTask at h
  simp only [parse] at h
  have hlines : cleanLs (splitLines md) := splitLines_clean md hmd
  have htl : cleanLs
      (('-' :: ' ' :: (if (ds.map (·.contains c.status.value)).getD false
            then ['[', 'x', ']'] else ['[', ' ', ']']) ++ ' ' :: c.title) ::
        (("  - status: ".toList) ++ c.status.value) :: createMetadataLines c.metadata) := by
    refine cleanLs_cons _ _ ?_ (cleanLs_cons _ _ ?_ (createMetadataLines_clean hmeta))
    · refine cleanLine_cons_of '-' _ (by decide) (cleanLine_cons_of ' ' _ (by decide) ?_)
      refine cleanLine_append ?_ (cleanLine_cons_of ' ' _ (by decide) htitle)
      split <;> decide
    · exact cleanLine_append (by decide) hstatus
  split at h
  · simp only [Except.ok.injEq] at h
    exact ⟨_, h.symm, cleanLs_spliceInsert hlines htl _⟩
  · split at h
    · simp only [Except.ok.injEq] at h
      exact ⟨_, h.symm, cleanLs_spliceInsert hlines htl _⟩
    · exact absurd h (by simp)

theorem findInsertLineForNewPath_ok (md : Str) (p : Path) :
    ∃ n, findInsertLineForNewPath md p = .ok n := by
  unfold findInsertLineForNewPath
  simp only [parse]
  split
  · exact ⟨_, rfl⟩
  · exact ⟨_, rfl⟩

theorem moveTask_clean {md : Str} {task : ParsedTask} {edit : TaskEdit} {out : Str}
    (hmd : pairedCR md = true) (hec : editClean edit = true)
    (h : moveTask md task edit = .ok out) :
    ∃ ls, out = joinLines ls (detectEol md) ∧ cleanLs ls := by
  obtain ⟨h1, h2, h3, _⟩ := editClean_fields hec
  unfold moveTask at h
  split at h
  · exact absurd h (by simp)
  case _ p hp =>
    split at h
    · exact absurd h (by simp)
    · have hlines : cleanLs (splitLines md) := splitLines_clean md hmd
      have htl3 : cleanLs (applyMetadataChange
          (applyStatusChange
            (applyTitleChange (jsSlice (splitLines md) (task.startLine - 1) task.endLine)
              edit.newTitle) edit.newStatus edit.doneStatuses)
          edit.newMetadata (some task.metadata)) :=
        applyMetadataChange_clean
          (applyStatusChange_clean
            (applyTitleChange_clean (cleanLs_jsSlice hlines _ _) h1) h2) h3
      have hrem : cleanLs (splitLines (joinLines
          (spliceRemove (splitLines md) (task.startLine - 1)
            (task.endLine - task.startLine + 1)) (detectEol md))) := by
        refine splitLines_clean _ ?_
        exact pairedCR_joinLines_eol (cleanLs_spliceRemove hlines _ _)
          (detectEol_cases md)
      dsimp only at h
      split at h
      · exact absurd h (by simp)
      · simp only [Except.ok.injEq] at h
        exact ⟨_, h.symm, cleanLs_spliceInsert hrem htl3 _⟩

theorem updateTask_clean {md : Str} {task : ParsedTask} {edit : TaskEdit} {out : Str}
    (hmd : pairedCR md = true) (hec : editClean edit = true)
    (h : updateTask md task edit = .ok out) :
    ∃ ls, out = joinLines ls (detectEol md) ∧ cleanLs ls := by
  unfold updateTask at h
  split at h
  · split at h
    · exact moveTask_clean hmd hec h
    · exact updateTaskInPlace_clean hmd hec h
  · exact updateTaskInPlace_clean hmd hec h

/-- Every successful edit returns the join, with the EOL detected from the
input, of a list of lines free of CR and LF — the central fact behind the
line-ending claims. -/
theorem applyEdit_clean {md : Str} {edit : TaskEdit} {out : Str}
    (hmd : pairedCR md = true) (hec : editClean edit = true)
    (h : applyEdit md edit = .ok out) :
    ∃ ls, out = joinLines ls (detectEol md) ∧ cleanLs ls := by
  obtain ⟨_, _, _, hc⟩ := editClean_fields hec
  unfold applyEdit at h
  split at h
  case _ c hcr =>
    obtain ⟨ht, hs, hm⟩ := hc c hcr
    exact createTask_clean hmd ht hs hm h
  · split at h
    · exact absurd h (by simp)
    · simp only [parse] at h
      split at h
      · exact absurd h (by simp)
      · split at h
        · exact deleteTask_clean hmd h
        · exact updateTask_clean hmd hec h

/-!
Claim C2: line-ending preservation.
-/

/-- C2, counterexample: the claim as stated is false.  The document
`"x\r\ny"` uses CRLF line breaks throughout (every LF is preceded by CR and
every CR is followed by LF), yet a successful create edit whose title
carries an embedded LF returns text containing a bare LF. -/
theorem C2_counterexample :
    pairedCR ("x\r\ny".toList) = true ∧ pairedLF ("x\r\ny".toList) = true
    ∧ applyEdit ("x\r\ny".toList)
        { create := some { title := "a\nb".toList, path := Path.create [],
                           status := ⟨"todo".toList⟩ } }
      = .ok ("x\r\ny\r\n- [ ] a\nb\r\n  - status: todo".toList)
    ∧ pairedLF ("x\r\ny\r\n- [ ] a\nb\r\n  - status: todo".toList) = false :=
  ⟨rfl, rfl, rfl, rfl⟩

/-- C2 (amended): for a document that contains at least one CRLF, whose line
breaks are all CRLF and which has no stray CR, every edit operation (create,
update, move, delete) whose string fields contain no CR or LF characters
returns, when it succeeds, text in which every LF is preceded by CR and every
CR is followed by LF — CRLF throughout, no bare LF, no stray CR. -/
theorem C2_line_ending_preservation (md : Str) (edit : TaskEdit) (out : Str)
    (hcr : pairedCR md = true) (hlf : pairedLF md = true)
    (hcrlf : containsSub md ['\r', '\n'] = true) (hec : editClean edit = true)
    (h : applyEdit md edit = .ok out) :
    pairedCR out = true ∧ pairedLF out = true := by
  obtain ⟨ls, rfl, hclean⟩ := applyEdit_clean hcr hec h
  rw [detectEol_of_crlf md hcrlf]
  exact joinLines_clean_crlf ls hclean

/-- C2, witness: the amended theorem applied to a concrete CRLF document and
a concrete status-change edit. -/
theorem C2_witness :
    pairedCR ("- [ ] a\r\n- [ ] b\r\n".toList) = true
    ∧ pairedLF ("- [ ] a\r\n- [ ] b\r\n".toList) = true
    ∧ (pairedCR ("- [x] a\r\n  - status: done\r\n- [ ] b\r\n".toList) = true
        ∧ pairedLF ("- [x] a\r\n  - status: done\r\n- [ ] b\r\n".toList) = true) :=
  ⟨rfl, rfl,
    C2_line_ending_preservation ("- [ ] a\r\n- [ ] b\r\n".toList)
      { taskId := some ("(root)::a".toList), newStatus := some ⟨"done".toList⟩,
        doneStatuses := some [("done".toList)] }
      ("- [x] a\r\n  - status: done\r\n- [ ] b\r\n".toList)
      rfl rfl rfl rfl rfl⟩

/-!
Claim C10: uniform EOL normalization.
-/

/-- C10, counterexample: the claim as stated is false for inputs holding a
stray CR.  The document `"abc\r"` contains no CRLF, so the claimed uniform
terminator is LF; yet a successful create edit returns text containing a
CRLF (the stray CR joined to the inserted LF) as well as a bare LF — two
different terminators. -/
theorem C10_counterexample :
    containsSub ("abc\r".toList) (['\r', '\n']) = false
    ∧ applyEdit ("abc\r".toList)
        { create := some { title := "New".toList, path := Path.create [],
                           status := ⟨"todo".toList⟩ } }
      = .ok ("abc\r\n- [ ] New\n  - status: todo".toList)
    ∧ containsSub ("abc\r\n- [ ] New\n  - status: todo".toList) (['\r', '\n']) = true
    ∧ pairedLF ("abc\r\n- [ ] New\n  - status: todo".toList) = false :=
  ⟨rfl, rfl, rfl, rfl⟩

/-- C10 (amended): for every input text whose every CR is part of a CRLF (no
stray CR) and every edit whose string fields contain no CR or LF, a
successful edit returns text using exactly one line terminator throughout,
chosen by inspecting the input once: when the input contains at least one
CRLF, every LF of the output is preceded by CR and every CR is followed by
LF (full CRLF normalization, also of bare-LF breaks outside the edited
range); otherwise the output contains no CR at all. -/
theorem C10_eol_normalization (md : Str) (edit : TaskEdit) (out : Str)
    (hcr : pairedCR md = true) (hec : editClean edit = true)
    (h : applyEdit md edit = .ok out) :
    (containsSub md ['\r', '\n'] = true → pairedCR out = true ∧ pairedLF out = true) ∧
    (containsSub md ['\r', '\n'] = false → noCR out = true) := by
  obtain ⟨ls, rfl, hclean⟩ := applyEdit_clean hcr hec h
  constructor
  · intro hc
    rw [detectEol_of_crlf md hc]
    exact joinLines_clean_crlf ls hclean
  · intro hc
    rw [detectEol_of_no_crlf md hc]
    exact joinLines_clean_lf ls hclean

/-- C10, witness: the amended theorem applied to a concrete input mixing
CRLF and bare-LF breaks; the result of a create edit is fully CRLF
normalized. -/
theorem C10_witness :
    pairedCR ("a\nb\r\nc".toList) = true
    ∧ containsSub ("a\nb\r\nc".toList) (['\r', '\n']) = true
    ∧ (pairedCR ("a\r\nb\r\nc\r\n- [ ] N\r\n  - status: todo".toList) = true
        ∧ pairedLF ("a\r\nb\r\nc\r\n- [ ] N\r\n  - status: todo".toList) = true) :=
  ⟨rfl, rfl,
    (C10_eol_normalization ("a\nb\r\nc".toList)
      { create := some { title := "N".toList, path := Path.create [],
                         status := ⟨"todo".toList⟩ } }
      ("a\r\nb\r\nc\r\n- [ ] N\r\n  - status: todo".toList)
      rfl rfl rfl).1 rfl⟩

/-!
Claim C5: TaskNotFound on absent ids; the delete-twice property.
-/

/-- C6: a create edit or a move (path-change update) targeting a non-root
path that matches no heading path of the document fails with
HeadingNotFound and returns no new text; the root path is always a valid
target: a root create always succeeds and a root move never fails. -/
theorem C6_heading_validation :
    (∀ (md : Str) (ci : CreateTaskInfo) (ds : Option (List Str)),
      ci.path.isRoot = false →
      (∀ hd ∈ (parseCore md).headings, hd.equals ci.path = false) →
      createTask md ci ds = .error (.headingNotFound ci.path)) ∧
    (∀ (md : Str) (ci : CreateTaskInfo) (ds : Option (List Str)),
      ci.path.isRoot = true → ∃ out, createTask md ci ds = .ok out) ∧
    (∀ (md : Str) (task : ParsedTask) (edit : TaskEdit) (p : Path),
      edit.newPath = some p → p.equals task.path = false → p.isRoot = false →
      (∀ hd ∈ (parseCore md).headings, hd.equals p = false) →
      updateTask md task edit = .error (.headingNotFound p)) ∧
    (∀ (md : Str) (task : ParsedTask) (edit : TaskEdit) (p : Path),
      edit.newPath = some p → p.equals task.path = false → p.isRoot = true →
      ∃ out, updateTask md task edit = .ok out) := by
  have hvalid_err : ∀ (md : Str) (p : Path), p.isRoot = false →
      (∀ hd ∈ (parseCore md).headings, hd.equals p = false) →
      validateTargetPath md p = .error (.headingNotFound p) := by
    intro md p hroot hnone
    unfold validateTargetPath
    simp only [hroot, Bool.false_eq_true, reduceIte, parse]
    have hany : (parseCore md).headings.any (fun h => h.equals p) = false := by
      apply List.any_eq_false.mpr
      intro hd hmem
      simp [hnone hd hmem]
    rw [hany]
    simp
  refine ⟨?_, ?_, ?_, ?_⟩
  · intro md ci ds hroot hnone
    unfold createTask
    simp only [parse, hroot, Bool.false_eq_true, reduceIte]
    have hany : (parseCore md).headings.any (fun h => h.equals ci.path) = false := by
      apply List.any_eq_false.mpr
      intro hd hmem
      simp [hnone hd hmem]
    rw [hany]
    simp
  · intro md ci ds hroot
    unfold createTask
    simp only [parse, hroot, reduceIte]
    exact ⟨_, rfl⟩
  · intro md task edit p hp hne hroot hnone
    unfold updateTask
    simp only [hp, hne, Bool.not_false, reduceIte]
    unfold moveTask
    simp only [hp]
    rw [hvalid_err md p hroot hnone]
  · intro md task edit p hp hne hroot
    unfold updateTask
    simp only [hp, hne, Bool.not_false, reduceIte]
    unfold moveTask
    simp only [hp]
    have hval : validateTargetPath md p = .ok () := by
      unfold validateTargetPath
      simp [hroot]
    rw [hval]
    dsimp only
    obtain ⟨n, hn⟩ := findInsertLineForNewPath_ok
      (joinLines (spliceRemove (splitLines md) (task.startLine - 1)
        (task.endLine - task.startLine + 1)) (detectEol md)) p
    rw [hn]
    exact ⟨_, rfl⟩

/-- C6, witness: the four parts of the theorem applied to concrete
documents — a create and a move to the missing heading `B` both fail with
HeadingNotFound, a root create and a root move both succeed. -/
theorem C6_witness :
    createTask ("# A\nx".toList)
        { title := "T".toList, path := Path.create [("B".toList)],
          status := ⟨"todo".toList⟩ } none
      = .error (.headingNotFound (Path.create [("B".toList)]))
    ∧ (∃ out, createTask ("# A\nx".toList)
        { title := "T".toList, path := Path.create [], status := ⟨"todo".toList⟩ } none
      = .ok out)
    ∧ updateTask ("# A\n- [ ] t".toList)
        { id := ("A::t".toList), title := ("t".toList), status := ⟨"todo".toList⟩,
          path := Path.create [("A".toList)], isChecked := false, metadata := [],
          startLine := 2, endLine := 2 }
        { taskId := some ("A::t".toList), newPath := some (Path.create [("B".toList)]) }
      = .error (.headingNotFound (Path.create [("B".toList)]))
    ∧ (∃ out, updateTask ("# A\n- [ ] t".toList)
        { id := ("A::t".toList), title := ("t".toList), status := ⟨"todo".toList⟩,
          path := Path.create [("A".toList)], isChecked := false, metadata := [],
          startLine := 2, endLine := 2 }
        { taskId := some ("A::t".toList), newPath := some (Path.create []) }
      = .ok out) :=
  ⟨C6_heading_validation.1 ("# A\nx".toList) _ none rfl (by decide),
   C6_heading_validation.2.1 ("# A\nx".toList) _ none rfl,
   C6_heading_validation.2.2.1 ("# A\n- [ ] t".toList) _ _ _ rfl rfl rfl (by decide),
   C6_heading_validation.2.2.2 ("# A\n- [ ] t".toList) _ _ _ rfl rfl rfl⟩

/-!
Claim C3: non-interference of in-place updates.
-/

/-- C3: a successful update edit with no path change rewrites only the
slice of lines between the task's startLine and endLine: the returned text
is the join, with the detected EOL, of the untouched prefix, a rewritten
middle, and the untouched suffix.  Every line before the task's range keeps
its content and position, and every line after it keeps its content at the
uniformly shifted position — so every line (hence every byte, the join
being uniform) belonging to any other task's disjoint line range is
unchanged. -/
theorem splice_frame {α : Type} (l : List α) (a e : Nat) (mid : List α)
    (ha : a ≤ l.length) :
    (∀ j, j < a → (l.take a ++ mid ++ l.drop e)[j]? = l[j]?) ∧
    (∀ j, e ≤ j → (l.take a ++ mid ++ l.drop e)[a + mid.length + (j - e)]? = l[j]?) := by
  have htk : (l.take a).length = a := List.length_take_of_le ha
  constructor
  · intro j hj
    rw [List.getElem?_append, if_pos (by simp only [List.length_append, htk]; omega),
      List.getElem?_append, if_pos (by omega)]
    exact List.getElem?_take_of_lt (by omega)
  · intro j hj
    rw [List.getElem?_append, if_neg (by simp only [List.length_append, htk]; omega)]
    have hidx : a + mid.length + (j - e) - (l.take a ++ mid).length = j - e := by
      simp only [List.length_append, htk]
      omega
    rw [hidx, List.getElem?_drop]
    have : e + (j - e) = j := by omega
    rw [this]

theorem C3_non_interference (md : Str) (task : ParsedTask) (edit : TaskEdit)
    (hnp : edit.newPath = none ∨ ∃ p, edit.newPath = some p ∧ p.equals task.path = true)
    (hs : 1 ≤ task.startLine) (hse : task.startLine ≤ task.endLine)
    (he : task.endLine ≤ (splitLines md).length) :
    ∃ mid, updateTask md task edit =
        .ok (joinLines ((splitLines md).take (task.startLine - 1) ++ mid ++
          (splitLines md).drop task.endLine) (detectEol md))
      ∧ (∀ j, j < task.startLine - 1 →
          ((splitLines md).take (task.startLine - 1) ++ mid ++
            (splitLines md).drop task.endLine)[j]? = (splitLines md)[j]?)
      ∧ (∀ j, task.endLine ≤ j →
          ((splitLines md).take (task.startLine - 1) ++ mid ++
            (splitLines md).drop task.endLine)[task.startLine - 1 + mid.length +
              (j - task.endLine)]? = (splitLines md)[j]?) := by
  have hup : updateTask md task edit = updateTaskInPlace md task edit := by
    unfold updateTask
    rcases hnp with hnp | ⟨p, hp, hpe⟩
    · rw [hnp]
    · simp [hp, hpe]
  obtain ⟨f1, f2⟩ := splice_frame (splitLines md) (task.startLine - 1) task.endLine
    (applyMetadataChange
      (applyStatusChange
        (applyTitleChange (jsSlice (splitLines md) (task.startLine - 1) task.endLine)
          edit.newTitle) edit.newStatus edit.doneStatuses)
      edit.newMetadata (some task.metadata))
    (by omega)
  refine ⟨applyMetadataChange
      (applyStatusChange
        (applyTitleChange (jsSlice (splitLines md) (task.startLine - 1) task.endLine)
          edit.newTitle) edit.newStatus edit.doneStatuses)
      edit.newMetadata (some task.metadata), ?_, f1, f2⟩
  rw [hup]
  unfold updateTaskInPlace
  have harith : task.startLine - 1 + (task.endLine - task.startLine + 1) = task.endLine := by
    omega
  simp only [spliceReplace, harith]

/-- C3, witness: the frame theorem applied to a concrete two-task document,
retitling the first task. -/
theorem C3_witness :
    ∃ mid,
      updateTask ("- [ ] a\n- [ ] b".toList)
          { id := ("(root)::a".toList), title := ("a".toList), status := ⟨"todo".toList⟩,
            path := Path.create [], isChecked := false, metadata := [],
            startLine := 1, endLine := 1 }
          { taskId := some ("(root)::a".toList), newTitle := some ("c".toList) }
        = .ok (joinLines ((splitLines ("- [ ] a\n- [ ] b".toList)).take (1 - 1) ++ mid ++
            (splitLines ("- [ ] a\n- [ ] b".toList)).drop 1)
            (detectEol ("- [ ] a\n- [ ] b".toList)))
      ∧ (∀ j, j < 1 - 1 →
          ((splitLines ("- [ ] a\n- [ ] b".toList)).take (1 - 1) ++ mid ++
            (splitLines ("- [ ] a\n- [ ] b".toList)).drop 1)[j]?
            = (splitLines ("- [ ] a\n- [ ] b".toList))[j]?)
      ∧ (∀ j, 1 ≤ j →
          ((splitLines ("- [ ] a\n- [ ] b".toList)).take (1 - 1) ++ mid ++
            (splitLines ("- [ ] a\n- [ ] b".toList)).drop 1)[1 - 1 + mid.length + (j - 1)]?
            = (splitLines ("- [ ] a\n- [ ] b".toList))[j]?) :=
  C3_non_interference ("- [ ] a\n- [ ] b".toList)
    { id := ("(root)::a".toList), title := ("a".toList), status := ⟨"todo".toList⟩,
      path := Path.create [], isChecked := false, metadata := [],
      startLine := 1, endLine := 1 }
    { taskId := some ("(root)::a".toList), newTitle := some ("c".toList) }
    (Or.inl rfl) (by decide) (by decide) (by decide)

/-!
Claim C4: status determination.  The priority rule is stated exactly as the
code has it, together with the fact that parsed metadata values are never
empty strings — so the `explicit status present` case of the rule is never
vacuously skipped by the falsy-empty-string guard.
-/

theorem dropWhile_head_false (p : Char → Bool) :
    ∀ l : Str, ∀ y ys, l.dropWhile p = y :: ys → p y = false := by
  intro l
  induction l with
  | nil => intro y ys h; simp at h
  | cons c rest ih =>
    intro y ys h
    rw [List.dropWhile_cons] at h
    by_cases hc : p c = true
    · rw [if_pos hc] at h
      exact ih y ys h
    · rw [if_neg hc] at h
      injection h with h1 _
      subst h1
      simpa using hc

theorem jsTrim_getLast_not_ws (s : Str) (h : jsTrim s ≠ []) :
    ∃ c, (jsTrim s).getLast? = some c ∧ isJsWs c = false := by
  unfold jsTrim at h ⊢
  set X := (s.dropWhile isJsWs).reverse with hX
  cases hD : X.dropWhile isJsWs with
  | nil => exact absurd (by rw [hD]; rfl) h
  | cons y ys =>
    refine ⟨y, ?_, dropWhile_head_false isJsWs X y ys hD⟩
    simp [List.getLast?_reverse]

theorem jsTrim_ne_nil_of_getLast (s : Str) (c : Char) (hl : s.getLast? = some c)
    (hc : isJsWs c = false) : jsTrim s ≠ [] := by
  intro hnil
  unfold jsTrim at hnil
  have h1 : (s.dropWhile isJsWs).reverse.dropWhile isJsWs = [] := by
    cases hD : (s.dropWhile isJsWs).reverse.dropWhile isJsWs with
    | nil => rfl
    | cons y ys => rw [hD] at hnil; simp at hnil
  have h2 : ∀ x ∈ (s.dropWhile isJsWs).reverse, isJsWs x = true := by
    intro x hx
    exact List.dropWhile_eq_nil_iff.mp h1 x hx
  have hcmem : c ∈ s := List.mem_of_mem_getLast? hl
  have hcdrop : c ∈ s.dropWhile isJsWs := by
    have := List.takeWhile_append_dropWhile (p := isJsWs) (l := s)
    rw [← this] at hcmem
    rcases List.mem_append.mp hcmem with hm | hm
    · exact absurd (List.mem_takeWhile_imp hm) (by simp [hc])
    · exact hm
  exact absurd (h2 c (List.mem_reverse.mpr hcdrop)) (by simp [hc])

theorem matchWsTail_g2 {ws tail wsf g2 : Str} (h : matchWsTail ws tail = some (wsf, g2)) :
    g2 ≠ [] ∧ g2.getLast? = (ws ++ tail).getLast? := by
  unfold matchWsTail at h
  by_cases ht : tail = []
  · subst ht
    rw [if_neg (by simp)] at h
    split at h
    case _ c hlast =>
      by_cases hc : dotOk c = true
      · rw [if_pos hc] at h
        injection h with h2
        injection h2 with ha hb
        subst hb
        refine ⟨by simp, ?_⟩
        rw [List.append_nil, hlast]
        rfl
      · rw [if_neg hc] at h
        exact absurd h (by simp)
    case _ => exact absurd h (by simp)
  · rw [if_pos ht] at h
    by_cases hall : tail.all dotOk = true
    · rw [if_pos hall] at h
      injection h with h2
      injection h2 with ha hb
      subst hb
      exact ⟨ht, (List.getLast?_append_of_ne_nil ws ht).symm⟩
    · rw [if_neg hall] at h
      exact absurd h (by simp)

theorem matchKeyValue_value {t k v : Str} (h : matchKeyValue t = some (k, v)) :
    v ≠ [] ∧ v.getLast? = t.getLast? := by
  unfold matchKeyValue at h
  split at h
  · exact absurd h (by simp)
  case _ afterColon hkey _ =>
    split at h
    case _ wsf g2 heq =>
      injection h with h2
      injection h2 with ha hb
      subst hb
      obtain ⟨hne, hlast⟩ := matchWsTail_g2 heq
      rw [List.takeWhile_append_dropWhile] at hlast
      have hac : afterColon ≠ [] := by
        intro hnil
        rw [hnil] at hlast
        simp only [List.getLast?_nil] at hlast
        exact hne (List.getLast?_eq_none_iff.mp hlast)
      have ht2 : t = t.take (t.takeWhile (fun c => decide (c ≠ ':'))).length ++
          ':' :: afterColon := by
        conv_lhs => rw [← List.take_append_drop
          (t.takeWhile (fun c => decide (c ≠ ':'))).length t]
        rw [hkey]
      have h5 : t.getLast? = afterColon.getLast? := by
        conv_lhs => rw [ht2]
        rw [List.getLast?_append_of_ne_nil _ (by simp : (':' :: afterColon) ≠ [])]
        exact List.getLast?_append_of_ne_nil [':'] hac
      exact ⟨hne, by rw [hlast, h5]⟩
    case _ => exact absurd h (by simp)
  · exact absurd h (by simp)

theorem mdSet_values_ne_nil :
    ∀ (m : Metadata) (k v : Str), (∀ kv ∈ m, kv.2 ≠ []) → v ≠ [] →
      ∀ kv ∈ mdSet m k v, kv.2 ≠ []
  | [], k, v, _, hv => by
    intro kv hkv
    simp only [mdSet, List.mem_singleton] at hkv
    subst hkv
    exact hv
  | (k0, v0) :: rest, k, v, hm, hv => by
    intro kv hkv
    rw [mdSet] at hkv
    by_cases hk : k0 = k
    · rw [if_pos hk] at hkv
      rcases List.mem_cons.mp hkv with h | h
      · subst h; exact hv
      · exact hm kv (List.mem_cons_of_mem _ h)
    · rw [if_neg hk] at hkv
      rcases List.mem_cons.mp hkv with h | h
      · subst h; exact hm (k0, v0) (List.mem_cons_self _ _)
      · exact mdSet_values_ne_nil rest k v
          (fun x hx => hm x (List.mem_cons_of_mem _ hx)) hv kv h

theorem extractMetadataParas_ne_nil :
    ∀ (ns : MdNodes) (acc : Metadata), (∀ kv ∈ acc, kv.2 ≠ []) →
      ∀ kv ∈ extractMetadataParas ns acc, kv.2 ≠ []
  | .nil, _, hacc => hacc
  | .cons (.heading _ _ _ _) rest, acc, hacc => extractMetadataParas_ne_nil rest acc hacc
  | .cons (.list _ _ _) rest, acc, hacc => extractMetadataParas_ne_nil rest acc hacc
  | .cons (.listItem _ _ _ _) rest, acc, hacc => extractMetadataParas_ne_nil rest acc hacc
  | .cons (.blockquote _ _) rest, acc, hacc => extractMetadataParas_ne_nil rest acc hacc
  | .cons (.code _ _) rest, acc, hacc => extractMetadataParas_ne_nil rest acc hacc
  | .cons (.paragraph raw txt s e) rest, acc, hacc => by
      refine extractMetadataParas_ne_nil rest _ ?_
      cases hkv : matchKeyValue (jsTrim txt) with
      | none => exact hacc
      | some p =>
        match p with
        | (k, v) =>
          show ∀ kv ∈ (if jsTrim k ≠ [] then mdSet acc (jsTrim k) (jsTrim v) else acc),
            kv.2 ≠ []
          by_cases hk : jsTrim k = []
          · rw [if_neg (by simp [hk])]
            exact hacc
          · rw [if_pos hk]
            refine mdSet_values_ne_nil acc _ _ hacc ?_
            have htne : jsTrim txt ≠ [] := by
              intro hnil
              rw [hnil] at hkv
              exact absurd hkv (by simp [matchKeyValue])
            obtain ⟨c, hc, hcws⟩ := jsTrim_getLast_not_ws txt htne
            obtain ⟨hvne, hvlast⟩ := matchKeyValue_value hkv
            exact jsTrim_ne_nil_of_getLast v c (hvlast.trans hc) hcws

/-- C4: the status of a parsed checkbox item follows the priority rule of
`determineStatus`: the explicit `status:` metadata value when one is present
(parsed metadata values are never empty, so the code's falsy-empty guard
never skips a present value); otherwise the frontmatter default done status
(or the literal `done`) when the box is checked; otherwise the frontmatter
default status (or the literal `todo`).  Concretely, with no metadata and no
frontmatter configuration, `- [x] done task` parses with status `done` and
`- [ ] open task` with status `todo`. -/
theorem C4_status_determination :
    (∀ (s : Str) (c : Bool) (cfg : Option FrontmatterConfig), s ≠ [] →
        determineStatus (some s) c cfg = s)
    ∧ (∀ cfg : FrontmatterConfig, determineStatus none true (some cfg)
        = cfg.defaultDoneStatus.getD DEFAULT_DONE_STATUS)
    ∧ (∀ cfg : FrontmatterConfig, determineStatus none false (some cfg)
        = cfg.defaultStatus.getD DEFAULT_STATUS)
    ∧ determineStatus none true none = DEFAULT_DONE_STATUS
    ∧ determineStatus none false none = DEFAULT_STATUS
    ∧ (∀ (ns : MdNodes) (acc : Metadata), (∀ kv ∈ acc, kv.2 ≠ ([] : Str)) →
        ∀ kv ∈ extractMetadataParas ns acc, kv.2 ≠ [])
    ∧ (parseCore ("- [x] done task".toList)).tasks.map (·.status.value) = [("done".toList)]
    ∧ (parseCore ("- [ ] open task".toList)).tasks.map (·.status.value) = [("todo".toList)] := by
  refine ⟨?_, ?_, ?_, rfl, rfl, extractMetadataParas_ne_nil, rfl, rfl⟩
  · intro s c cfg hs
    unfold determineStatus
    simp [hs]
  · intro cfg
    rfl
  · intro cfg
    rfl

/-- C4, witness: the guarded conjuncts of the theorem applied concretely —
an explicit non-empty status wins, and metadata extracted from a concrete
paragraph node has non-empty values. -/
theorem C4_witness :
    determineStatus (some ("x".toList)) false none = ("x".toList)
    ∧ (∀ kv ∈ extractMetadataParas
        (.cons (.paragraph ("status: done".toList) ("status: done".toList) 2 2) .nil) [],
        kv.2 ≠ ([] : Str)) :=
  ⟨C4_status_determination.1 ("x".toList) false none (by decide),
   C4_status_determination.2.2.2.2.2.1 _ [] (by simp)⟩

/-!
Claim C7: opacity of blockquote and fenced code blocks.
-/

theorem walkNodes_eraseOpaque :
    ∀ (ns : MdNodes) (stack : HeadingStack) (headings : List Path)
      (tasks : List ParsedTask) (off : Nat) (cfg : Option FrontmatterConfig) (bq : Bool),
      walkNodes (eraseOpaque ns) stack headings tasks off cfg bq
        = walkNodes ns stack headings tasks off cfg bq
  | .nil, _, _, _, _, _, _ => rfl
  | .cons (.blockquote _ _) rest, st, hd, ts, off, cfg, bq =>
    walkNodes_eraseOpaque rest st hd ts off cfg bq
  | .cons (.code _ _) rest, st, hd, ts, off, cfg, bq =>
    walkNodes_eraseOpaque rest st hd ts off cfg bq
  | .cons (.heading d t a b) rest, st, hd, ts, off, cfg, bq => by
    show walkNodes (.cons (.heading d t a b) (eraseOpaque rest)) st hd ts off cfg bq = _
    cases hp : processHeading d t st with
    | mk s2 p =>
      simp only [walkNodes, hp]
      exact walkNodes_eraseOpaque rest s2 (hd ++ [p]) ts off cfg bq
  | .cons (.paragraph r t a b) rest, st, hd, ts, off, cfg, bq => by
    show walkNodes (.cons (.paragraph r t a b) (eraseOpaque rest)) st hd ts off cfg bq = _
    simp only [walkNodes]
    exact walkNodes_eraseOpaque rest st hd ts off cfg bq
  | .cons (.list ch a b) rest, st, hd, ts, off, cfg, bq => by
    show walkNodes (.cons (.list ch a b) (eraseOpaque rest)) st hd ts off cfg bq = _
    simp only [walkNodes]
    exact walkNodes_eraseOpaque rest st hd (processList ch st ts off cfg bq) off cfg bq
  | .cons (.listItem c ch a b) rest, st, hd, ts, off, cfg, bq => by
    show walkNodes (.cons (.listItem c ch a b) (eraseOpaque rest)) st hd ts off cfg bq = _
    simp only [walkNodes]
    exact walkNodes_eraseOpaque rest st hd ts off cfg bq

/-- C7: the tree walk never descends into blockquote or code nodes — erasing
every top-level blockquote and code node leaves the walk's entire output
(stack, headings and tasks) unchanged, whatever state the walk starts in.
Concretely, a document with one real checkbox item, one quoted checkbox item
and one fenced checkbox item parses to exactly one task, titled `real`. -/
theorem C7_opaque_blocks :
    (∀ (ns : MdNodes) (stack : HeadingStack) (headings : List Path)
        (tasks : List ParsedTask) (off : Nat) (cfg : Option FrontmatterConfig) (bq : Bool),
      walkNodes (eraseOpaque ns) stack headings tasks off cfg bq
        = walkNodes ns stack headings tasks off cfg bq)
    ∧ (parseCore ("- [ ] real\n\n> - [ ] quoted\n\n```\n- [ ] coded\n```".toList)).tasks.map
        (·.title) = [("real".toList)]
    ∧ (parseCore ("- [ ] real\n\n> - [ ] quoted\n\n```\n- [ ] coded\n```".toList)).tasks.length
        = 1 :=
  ⟨walkNodes_eraseOpaque, rfl, rfl⟩

/-!
Claim C8: heading-stack maintenance and path fidelity.
-/

theorem popGE_cons (a : HeadEntry) (s : HeadingStack) (lv : Nat) (ha : a.level < lv) :
    popGE (a :: s) lv = a :: popGE s lv := by
  unfold popGE
  rw [List.reverse_cons, List.dropWhile_append]
  by_cases hd : (s.reverse.dropWhile (fun h => decide (lv ≤ h.level))).isEmpty
  · rw [if_pos hd]
    rw [List.isEmpty_iff] at hd
    rw [hd, List.dropWhile_cons, if_neg (by simp; omega), List.reverse_cons,
      List.reverse_nil, List.nil_append]
  · rw [if_neg hd, List.reverse_append, List.reverse_cons, List.reverse_nil,
      List.nil_append]
    rfl

theorem popGE_all_ge (s : HeadingStack) (lv : Nat) (h : ∀ x ∈ s, lv ≤ x.level) :
    popGE s lv = [] := by
  unfold popGE
  have : s.reverse.dropWhile (fun h => decide (lv ≤ h.level)) = [] := by
    rw [List.dropWhile_eq_nil_iff]
    intro x hx
    simpa using h x (List.mem_reverse.mp hx)
  rw [this]
  rfl

theorem popGE_increasing :
    ∀ (s : HeadingStack) (lv : Nat), stackIncreasing s →
      popGE s lv = s.takeWhile (fun h => h.level < lv)
  | [], _, _ => rfl
  | a :: s, lv, hinc => by
    obtain ⟨ha2, hs⟩ := List.pairwise_cons.mp hinc
    by_cases hlt : a.level < lv
    · rw [popGE_cons a s lv hlt, popGE_increasing s lv hs, List.takeWhile_cons,
        if_pos (by simpa using hlt)]
    · rw [popGE_all_ge (a :: s) lv ?ge, List.takeWhile_cons, if_neg (by simpa using hlt)]
      case ge =>
        intro x hx
        rcases List.mem_cons.mp hx with h | h
        · subst h; omega
        · have := ha2 x h; omega

/-- C8: on a heading of level `L` the stack pops every entry with level at
least `L` before pushing the new entry — on a strictly increasing stack the
result is exactly the entries of level below `L` followed by the new entry;
this preserves the strictly-increasing invariant, and the recorded path is
the snapshot of the resulting stack.  Concretely, level jumps are legal:
`# A` `## B` gives a task path `A / B`, and `# A` `### C` gives `A / C`. -/
theorem C8_heading_stack :
    (∀ (stack : HeadingStack) (lv : Nat) (txt : Str), stackIncreasing stack →
        (processHeading lv txt stack).1
          = stack.takeWhile (fun h => h.level < lv) ++ [⟨lv, txt⟩])
    ∧ (∀ (stack : HeadingStack) (lv : Nat) (txt : Str), stackIncreasing stack →
        stackIncreasing (processHeading lv txt stack).1)
    ∧ (∀ (stack : HeadingStack) (lv : Nat) (txt : Str),
        (processHeading lv txt stack).2
          = Path.create (((processHeading lv txt stack).1).map (·.text)))
    ∧ (parseCore ("# A\n## B\n- [ ] t".toList)).tasks.map (·.path.segments)
        = [[("A".toList), ("B".toList)]]
    ∧ (parseCore ("# A\n### C\n- [ ] t".toList)).tasks.map (·.path.segments)
        = [[("A".toList), ("C".toList)]] := by
  refine ⟨?_, ?_, ?_, rfl, rfl⟩
  · intro stack lv txt hinc
    unfold processHeading
    rw [popGE_increasing stack lv hinc]
  · intro stack lv txt hinc
    unfold processHeading
    rw [popGE_increasing stack lv hinc]
    unfold stackIncreasing
    rw [List.pairwise_append]
    refine ⟨List.Pairwise.sublist (List.takeWhile_sublist _) hinc,
      List.pairwise_singleton _ _, ?_⟩
    intro x hx b hb
    rcases List.mem_singleton.mp hb with rfl
    simpa using List.mem_takeWhile_imp hx
  · intro stack lv txt
    rfl

/-- C8, witness: the stack-characterization conjuncts applied to the concrete
increasing stack `[A at level 1, B at level 2]` receiving a level-2
heading. -/
theorem C8_witness :
    stackIncreasing [⟨1, ("A".toList)⟩, ⟨2, ("B".toList)⟩]
    ∧ (processHeading 2 ("C".toList) [⟨1, ("A".toList)⟩, ⟨2, ("B".toList)⟩]).1
        = ([⟨1, ("A".toList)⟩, ⟨2, ("B".toList)⟩].takeWhile (fun h => h.level < 2))
            ++ [⟨2, ("C".toList)⟩]
    ∧ stackIncreasing
        (processHeading 2 ("C".toList) [⟨1, ("A".toList)⟩, ⟨2, ("B".toList)⟩]).1 :=
  ⟨by decide,
   C8_heading_stack.1 [⟨1, ("A".toList)⟩, ⟨2, ("B".toList)⟩] 2 ("C".toList) (by decide),
   C8_heading_stack.2.1 [⟨1, ("A".toList)⟩, ⟨2, ("B".toList)⟩] 2 ("C".toList) (by decide)⟩

/-!
Claim C9: task line-range computation.
-/

theorem scanItemChildren_end :
    ∀ (ns : MdNodes) (t : Str) (m : Metadata) (e : Nat),
      (scanItemChildren ns (t, m, e)).2.2 = (lastListEnd ns).getD e
  | .nil, _, _, _ => rfl
  | .cons (.heading d tx a b) rest, t, m, e => by
    show (scanItemChildren rest (t, m, e)).2.2
        = (lastListEnd (.cons (.heading d tx a b) rest)).getD e
    rw [scanItemChildren_end rest t m e]
    cases h : lastListEnd rest <;> simp [lastListEnd, h]
  | .cons (.paragraph raw tx a b) rest, t, m, e => by
    show (if t = [] then scanItemChildren rest (stripCheckbox (jsTrim raw), m, e)
          else scanItemChildren rest (t, m, e)).2.2
        = (lastListEnd (.cons (.paragraph raw tx a b) rest)).getD e
    by_cases ht : t = []
    · rw [if_pos ht, scanItemChildren_end rest (stripCheckbox (jsTrim raw)) m e]
      cases h : lastListEnd rest <;> simp [lastListEnd, h]
    · rw [if_neg ht, scanItemChildren_end rest t m e]
      cases h : lastListEnd rest <;> simp [lastListEnd, h]
  | .cons (.list ch a le) rest, t, m, e => by
    show (scanItemChildren rest (t, extractMetadataItems ch [], le)).2.2
        = (lastListEnd (.cons (.list ch a le) rest)).getD e
    rw [scanItemChildren_end rest t (extractMetadataItems ch []) le]
    cases h : lastListEnd rest <;> simp [lastListEnd, h]
  | .cons (.listItem c ch a b) rest, t, m, e => by
    show (scanItemChildren rest (t, m, e)).2.2
        = (lastListEnd (.cons (.listItem c ch a b) rest)).getD e
    rw [scanItemChildren_end rest t m e]
    cases h : lastListEnd rest <;> simp [lastListEnd, h]
  | .cons (.blockquote a b) rest, t, m, e => by
    show (scanItemChildren rest (t, m, e)).2.2
        = (lastListEnd (.cons (.blockquote a b) rest)).getD e
    rw [scanItemChildren_end rest t m e]
    cases h : lastListEnd rest <;> simp [lastListEnd, h]
  | .cons (.code a b) rest, t, m, e => by
    show (scanItemChildren rest (t, m, e)).2.2
        = (lastListEnd (.cons (.code a b) rest)).getD e
    rw [scanItemChildren_end rest t m e]
    cases h : lastListEnd rest <;> simp [lastListEnd, h]

/-- C9, counterexample: the claim says `endLine` is the LATER of the item's
own end line and the metadata sublist's end line.  The code instead takes the
LAST list child's end line whenever any list child exists, even when the item
itself extends further.  In the document below the checkbox item spans lines
1–4 (a trailing paragraph at line 4 belongs to the item), its metadata
sublist ends at line 2, and the parsed task's `endLine` is 2 — not
`max 4 2 = 4` as the claim computes. -/
theorem C9_counterexample :
    parseToAst ("- [ ] t\n  - k: v\n\n  trailing".toList)
      = .cons
          (.list
            (.cons
              (.listItem (some false)
                (.cons (.paragraph ("[ ] t".toList) ("[ ] t".toList) 1 1)
                  (.cons
                    (.list
                      (.cons
                        (.listItem none
                          (.cons (.paragraph ("k: v".toList) ("k: v".toList) 2 2) .nil)
                          2 2)
                        .nil)
                      2 2)
                    (.cons (.paragraph ("trailing".toList) ("trailing".toList) 4 4) .nil)))
                1 4)
              .nil)
            1 4)
          .nil
    ∧ (parseCore ("- [ ] t\n  - k: v\n\n  trailing".toList)).tasks.map (·.endLine) = [2]
    ∧ (2 : Nat) ≠ Nat.max 4 2 :=
  ⟨rfl, rfl, by decide⟩

/-- C9 (amended): every task produced by `extractTask` has
`startLine = item start + frontmatter offset` and `endLine = (end line of the
item's LAST list child, or the item's own end line when it has no list
child) + offset`; the frontmatter offset for a document `pre ++ content`
whose frontmatter part `pre` was stripped is the number of newlines in
`pre`; concretely a task with no metadata spans exactly its checkbox line and
a task with a metadata sublist spans through the sublist's last line. -/
theorem C9_line_ranges :
    (∀ (checked : Option Bool) (ch : MdNodes) (s e : Nat) (stack : HeadingStack)
        (off : Nat) (cfg : Option FrontmatterConfig) (task : ParsedTask),
      extractTask checked ch s e stack off cfg = some task →
      task.startLine = s + off ∧ task.endLine = (lastListEnd ch).getD e + off)
    ∧ (∀ pre content : Str, countFrontmatterLines (pre ++ content) content = countNl pre)
    ∧ (parseCore ("- [ ] t".toList)).tasks.map (fun t => (t.startLine, t.endLine)) = [(1, 1)]
    ∧ (parseCore ("- [ ] t\n  - k: v".toList)).tasks.map (fun t => (t.startLine, t.endLine))
        = [(1, 2)] := by
  refine ⟨?_, ?_, rfl, rfl⟩
  · intro checked ch s e stack off cfg task h
    have hscan2 := scanItemChildren_end ch [] [] e
    unfold extractTask at h
    cases hscan : scanItemChildren ch ([], [], e) with
    | mk title rest2 =>
      cases rest2 with
      | mk metadata endLine =>
        rw [hscan] at h hscan2
        have hEnd : endLine = (lastListEnd ch).getD e := hscan2
        dsimp only at h
        split at h
        · exact Option.noConfusion h
        · split at h
          · exact Option.noConfusion h
          · injection h with h2
            subst h2
            exact ⟨rfl, by rw [hEnd]⟩
  · intro pre content
    unfold countFrontmatterLines
    by_cases hp : pre = []
    · subst hp
      simp [countNl]
    · have hne : ¬ (pre ++ content = content) := by
        intro heq
        apply hp
        have hlen := congrArg List.length heq
        rw [List.length_append] at hlen
        have : pre.length = 0 := by omega
        exact List.eq_nil_of_length_eq_zero this
      rw [if_neg hne, List.length_append, Nat.add_sub_cancel, List.take_left]

/-- C9, witness: the amended line-range theorem applied to a concrete
checkbox item with no list child: the task spans exactly its checkbox
line. -/
theorem C9_witness :
    extractTask (some false)
        (.cons (.paragraph ("[ ] t".toList) ("[ ] t".toList) 1 1) .nil) 1 1 [] 0 none
      = some
          { id := ("(root)::t".toList), title := ("t".toList)
            status := ⟨("todo".toList)⟩, path := ⟨[]⟩, isChecked := false
            metadata := [], startLine := 1, endLine := 1 }
    ∧ ({ id := ("(root)::t".toList), title := ("t".toList)
         status := ⟨("todo".toList)⟩, path := ⟨[]⟩, isChecked := false
         metadata := [], startLine := 1, endLine := 1 } : ParsedTask).startLine = 1 + 0
    ∧ ({ id := ("(root)::t".toList), title := ("t".toList)
         status := ⟨("todo".toList)⟩, path := ⟨[]⟩, isChecked := false
         metadata := [], startLine := 1, endLine := 1 } : ParsedTask).endLine
        = (lastListEnd
            (.cons (.paragraph ("[ ] t".toList) ("[ ] t".toList) 1 1) .nil)).getD 1 + 0 :=
  ⟨rfl,
   (C9_line_ranges.1 (some false)
      (.cons (.paragraph ("[ ] t".toList) ("[ ] t".toList) 1 1) .nil)
      1 1 [] 0 none _ rfl).1,
   (C9_line_ranges.1 (some false)
      (.cons (.paragraph ("[ ] t".toList) ("[ ] t".toList) 1 1) .nil)
      1 1 [] 0 none _ rfl).2⟩

/-!
Claim C1: canonical-form matcher lemmas.
-/

theorem prefixColon :
    ∀ (q k t : Str), q.all (fun c => c ≠ ':') = true → k.all (fun c => c ≠ ':') = true →
      (q ++ [':']).isPrefixOf (k ++ ':' :: t) = decide (q = k)
  | [], [], t, _, _ => by simp [List.isPrefixOf]
  | [], kc :: k, t, _, hk => by
    simp only [List.all_cons, Bool.and_eq_true] at hk
    have hkc : (':' == kc) = false :=
      beq_eq_false_iff_ne.mpr (Ne.symm (by simpa using hk.1))
    simp [List.isPrefixOf, hkc]
  | qc :: q, [], t, hq, _ => by
    simp only [List.all_cons, Bool.and_eq_true] at hq
    have hqc : (qc == ':') = false := beq_eq_false_iff_ne.mpr (by simpa using hq.1)
    simp [List.isPrefixOf, hqc]
  | qc :: q, kc :: k, t, hq, hk => by
    simp only [List.all_cons, Bool.and_eq_true] at hq hk
    show ((qc :: q) ++ [':']).isPrefixOf ((kc :: k) ++ ':' :: t) = decide (qc :: q = kc :: k)
    simp only [List.cons_append, List.isPrefixOf]
    show (qc == kc && (q ++ [':']).isPrefixOf (k ++ ':' :: t)) = decide (qc :: q = kc :: k)
    rw [prefixColon q k t hq.2 hk.2]
    by_cases hqk : qc = kc
    · subst hqk
      simp
    · have : (qc == kc) = false := beq_eq_false_iff_ne.mpr hqk
      simp [this, hqk]

theorem valOk_ne_nil (v : Str) (hv : valOk v = true) : v ≠ [] := by
  cases v with
  | nil => exact absurd hv (by decide)
  | cons c rest => exact List.cons_ne_nil c rest

theorem matchWsTail_space (v : Str) (hv : valOk v = true) :
    matchWsTail ((' ' :: v).takeWhile isJsWs) ((' ' :: v).dropWhile isJsWs)
      = some ([' '], v) := by
  match v, hv with
  | c :: rest, hv =>
    simp only [valOk, Bool.and_eq_true] at hv
    have hws : isJsWs c = false := by simpa using hv.1
    rw [List.takeWhile_cons, List.dropWhile_cons]
    rw [show isJsWs ' ' = true from by decide]
    simp only [if_true]
    rw [List.takeWhile_cons, List.dropWhile_cons, hws]
    simp only [Bool.false_eq_true, if_false]
    unfold matchWsTail
    simp [hv.2]

theorem matchDashKeyLine_dash (key l r2 : Str) (h : l.dropWhile isJsWs = '-' :: r2) :
    matchDashKeyLine key l
      = dashKeyBacktrack key (r2.takeWhile isJsWs) (r2.dropWhile isJsWs)
          (r2.takeWhile isJsWs).length := by
  unfold matchDashKeyLine
  rw [h]
  rfl

theorem matchDashKeyLine_canon (q k v : Str) (hq : keyOk q = true) (hk : keyOk k = true)
    (hv : valOk v = true) :
    matchDashKeyLine q (metaLine (k, v)) = decide (q = k) := by
  match q, k, hq, hk with
  | [], k, hq, _ => exact Bool.noConfusion hq
  | qc :: q, [], _, hk => exact Bool.noConfusion hk
  | qc :: q, kc :: k, hq, hk =>
    simp only [keyOk, Bool.and_eq_true] at hq hk
    have hqws : isJsWs qc = false := by simpa using hq.1
    have hkws : isJsWs kc = false := by simpa using hk.1
    have hdw : (metaLine (kc :: k, v)).dropWhile isJsWs
        = '-' :: (' ' :: kc :: (k ++ ':' :: ' ' :: v)) := rfl
    rw [matchDashKeyLine_dash (qc :: q) _ _ hdw]
    have htw : List.takeWhile isJsWs (' ' :: kc :: (k ++ ':' :: ' ' :: v)) = [' '] := by
      rw [List.takeWhile_cons, if_pos (show isJsWs ' ' = true by decide),
        List.takeWhile_cons, hkws]
      simp
    have hdw2 : List.dropWhile isJsWs (' ' :: kc :: (k ++ ':' :: ' ' :: v))
        = kc :: (k ++ ':' :: ' ' :: v) := by
      rw [List.dropWhile_cons, if_pos (show isJsWs ' ' = true by decide),
        List.dropWhile_cons, hkws]
      simp
    rw [htw, hdw2]
    have hback : dashKeyBacktrack (qc :: q) [' '] (kc :: (k ++ ':' :: ' ' :: v))
          ([' '] : Str).length
        = (dashKeyAttempt (qc :: q) [' '] (kc :: (k ++ ':' :: ' ' :: v)) 1
          || dashKeyAttempt (qc :: q) [' '] (kc :: (k ++ ':' :: ' ' :: v)) 0) := rfl
    rw [hback]
    have hA0 : dashKeyAttempt (qc :: q) [' '] (kc :: (k ++ ':' :: ' ' :: v)) 0 = false := by
      unfold dashKeyAttempt
      have hq' : (qc == ' ') = false := beq_eq_false_iff_ne.mpr (by
        intro h
        rw [h] at hqws
        exact absurd hqws (by decide))
      have hpre : ((qc :: q) ++ [':']).isPrefixOf
          (([' '] : Str).drop 0 ++ (kc :: (k ++ ':' :: ' ' :: v))) = false := by
        show ((qc :: q) ++ [':']).isPrefixOf (' ' :: (kc :: (k ++ ':' :: ' ' :: v))) = false
        simp [List.isPrefixOf, hq']
      dsimp only
      rw [hpre]
      simp
    have hA1 : dashKeyAttempt (qc :: q) [' '] (kc :: (k ++ ':' :: ' ' :: v)) 1
        = decide (qc :: q = kc :: k) := by
      unfold dashKeyAttempt
      have hs : (([' '] : Str).drop 1 ++ (kc :: (k ++ ':' :: ' ' :: v)))
          = (kc :: k) ++ ':' :: ' ' :: v := by simp
      rw [hs]
      dsimp only
      rw [prefixColon (qc :: q) (kc :: k) (' ' :: v) hq.2 hk.2]
      by_cases hqk : qc :: q = kc :: k
      · rw [if_pos (by simp [hqk])]
        have hsplit2 : ((kc :: k) ++ ':' :: ' ' :: v : Str)
            = ((kc :: k) ++ [':']) ++ ' ' :: v := by simp
        have hlen : (qc :: q).length + 1 = ((kc :: k) ++ [':'] : Str).length := by
          rw [hqk]
          simp
        have hdrop : ((kc :: k) ++ ':' :: ' ' :: v : Str).drop ((qc :: q).length + 1)
            = ' ' :: v := by
          rw [hsplit2, hlen, List.drop_left]
        rw [hdrop, matchWsTail_space v hv]
        simp [hqk]
      · rw [if_neg (by simp [hqk])]
        simp [hqk]
    rw [hA0, hA1]
    simp

theorem matchCheckboxTitle_canon (b : Char) (title : Str)
    (hb : b = ' ' ∨ b = 'x' ∨ b = 'X') (ht : valOk title = true) :
    matchCheckboxTitle (checkboxLine b title)
      = some (['-', ' ', '[', b, ']', ' '], title) := by
  rcases hb with rfl | rfl | rfl
  · show (match matchWsTail (List.takeWhile isJsWs (' ' :: title))
            (List.dropWhile isJsWs (' ' :: title)) with
          | some (ws3f, g2) => some ('-' :: ' ' :: '[' :: ' ' :: ']' :: ws3f, g2)
          | none => none)
        = some (['-', ' ', '[', ' ', ']', ' '], title)
    rw [matchWsTail_space title ht]
  · show (match matchWsTail (List.takeWhile isJsWs (' ' :: title))
            (List.dropWhile isJsWs (' ' :: title)) with
          | some (ws3f, g2) => some ('-' :: ' ' :: '[' :: 'x' :: ']' :: ws3f, g2)
          | none => none)
        = some (['-', ' ', '[', 'x', ']', ' '], title)
    rw [matchWsTail_space title ht]
  · show (match matchWsTail (List.takeWhile isJsWs (' ' :: title))
            (List.dropWhile isJsWs (' ' :: title)) with
          | some (ws3f, g2) => some ('-' :: ' ' :: '[' :: 'X' :: ']' :: ws3f, g2)
          | none => none)
        = some (['-', ' ', '[', 'X', ']', ' '], title)
    rw [matchWsTail_space title ht]

theorem replaceFirstIn_id : ∀ (s : Str) (pats : List Str) (repl : Str),
    (∀ p ∈ pats, containsSub s p = false) → replaceFirstIn s pats repl = s
  | [], _, _, _ => rfl
  | c :: rest, pats, repl, h => by
    have hf : pats.find? (fun p => p.isPrefixOf (c :: rest)) = none := by
      rw [List.find?_eq_none]
      intro p hp
      have hcp := h p hp
      simp only [containsSub, Bool.or_eq_false_iff] at hcp
      simp [hcp.1]
    unfold replaceFirstIn
    rw [hf]
    show c :: replaceFirstIn rest pats repl = c :: rest
    congr 1
    exact replaceFirstIn_id rest pats repl (fun p hp => by
      have hcp := h p hp
      simp only [containsSub, Bool.or_eq_false_iff] at hcp
      exact hcp.2)

theorem set_same : ∀ (l : List Str) (i : Nat) (a : Str),
    l.getD i [] = a → i < l.length → l.set i a = l
  | [], i, _, _, hi => by simp at hi
  | x :: xs, 0, a, h, _ => by
    rw [List.getD_cons_zero] at h
    rw [← h]
    rfl
  | x :: xs, i + 1, a, h, hi => by
    rw [List.getD_cons_succ] at h
    show x :: xs.set i a = x :: xs
    congr 1
    exact set_same xs i a h (by simpa using hi)

theorem mdLookup_mem (es : Metadata) (q v : Str) (h : mdLookup es q = some v) :
    (q, v) ∈ es := by
  unfold mdLookup at h
  cases hf : es.find? (fun kv => kv.1 = q) with
  | none =>
    rw [hf] at h
    simp at h
  | some kv =>
    rw [hf] at h
    simp at h
    have hmem := List.mem_of_find?_eq_some hf
    have hpred := List.find?_some hf
    simp only [decide_eq_true_eq] at hpred
    have hkv : kv = (q, v) := by
      cases kv
      simp only [Prod.mk.injEq]
      exact ⟨hpred, h⟩
    rw [← hkv]
    exact hmem

theorem mdHasKey_of_mem (es : Metadata) (q : Str) (h : q ∈ mdKeys es) :
    mdHasKey es q = true := by
  unfold mdKeys at h
  obtain ⟨kv, hkv, hq⟩ := List.mem_map.mp h
  unfold mdHasKey mdLookup
  cases hf : es.find? (fun kv => kv.1 = q) with
  | some _ => simp
  | none =>
    exfalso
    have := List.find?_eq_none.mp hf kv hkv
    simp [hq] at this

theorem findKeyLineFrom_meta :
    ∀ (es : Metadata) (i : Nat) (q : Str), keyOk q = true →
      (∀ kv ∈ es, keyOk kv.1 = true ∧ valOk kv.2 = true) →
      (mdLookup es q = none ∧ findKeyLineFrom q i (es.map metaLine) = none)
      ∨ (∃ j v, findKeyLineFrom q i (es.map metaLine) = some (i + j)
          ∧ j < es.length
          ∧ (es.map metaLine).getD j [] = metaLine (q, v)
          ∧ mdLookup es q = some v
          ∧ valOk v = true)
  | [], _, _, _, _ => .inl ⟨rfl, rfl⟩
  | (k, v) :: es, i, q, hq, hes => by
    have hk := (hes (k, v) (List.mem_cons_self _ _)).1
    have hv := (hes (k, v) (List.mem_cons_self _ _)).2
    have hstep : findKeyLineFrom q i (((k, v) :: es).map metaLine)
        = if matchDashKeyLine q (metaLine (k, v)) = true then some i
          else findKeyLineFrom q (i + 1) (es.map metaLine) := rfl
    rw [matchDashKeyLine_canon q k v hq hk hv] at hstep
    by_cases hqk : q = k
    · right
      refine ⟨0, v, ?_, by simp, ?_, ?_, hv⟩
      · rw [hstep, if_pos (by simp [hqk])]
        simp
      · subst hqk
        rfl
      · show ((((k, v) :: es).find? (fun kv => kv.1 = q)).map (·.2)) = some v
        rw [List.find?_cons_of_pos _ (by simp [hqk])]
        rfl
    · rcases findKeyLineFrom_meta es (i + 1) q hq
          (fun kv hkv => hes kv (List.mem_cons_of_mem _ hkv)) with
        ⟨h1, h2⟩ | ⟨j, v2, h1, hj, h2, h3, hv2⟩
      · left
        refine ⟨?_, ?_⟩
        · show ((((k, v) :: es).find? (fun kv => kv.1 = q)).map (·.2)) = none
          rw [List.find?_cons_of_neg _ (by simp [Ne.symm hqk])]
          exact h1
        · rw [hstep, if_neg (by simp [hqk])]
          exact h2
      · right
        refine ⟨j + 1, v2, ?_, by simp only [List.length_cons]; omega, ?_, ?_, hv2⟩
        · rw [hstep, if_neg (by simp [hqk]), h1]
          congr 1
          omega
        · show (metaLine (k, v) :: es.map metaLine).getD (j + 1) [] = metaLine (q, v2)
          rw [List.getD_cons_succ]
          exact h2
        · show ((((k, v) :: es).find? (fun kv => kv.1 = q)).map (·.2)) = some v2
          rw [List.find?_cons_of_neg _ (by simp [Ne.symm hqk])]
          exact h3

theorem applyTitleChange_some_cons (l0 : Str) (rest : List Str) (t g1 g2 : Str)
    (hne : t ≠ []) (hm : matchCheckboxTitle l0 = some (g1, g2)) :
    applyTitleChange (l0 :: rest) (some t) = (g1 ++ t) :: rest := by
  unfold applyTitleChange
  dsimp only
  rw [if_neg hne, hm]

theorem applyTitleChange_canon (b : Char) (title : Str) (rest : List Str)
    (hb : b = ' ' ∨ b = 'x' ∨ b = 'X') (ht : valOk title = true) :
    applyTitleChange (checkboxLine b title :: rest) (some title)
      = checkboxLine b title :: rest := by
  rw [applyTitleChange_some_cons (checkboxLine b title) rest title _ title
    (valOk_ne_nil title ht) (matchCheckboxTitle_canon b title hb ht)]
  rfl

theorem applyCheckboxFlip_canon (l0 : Str) (rest : List Str) (isDone : Bool)
    (h : (if isDone then containsSub l0 ['[', ' ', ']']
          else containsSub l0 ['[', 'x', ']'] || containsSub l0 ['[', 'X', ']']) = false) :
    applyCheckboxFlip (l0 :: rest) isDone = l0 :: rest := by
  unfold applyCheckboxFlip
  cases isDone with
  | true =>
    simp only [if_true] at h ⊢
    congr 1
    exact replaceFirstIn_id l0 _ _ (by
      intro p hp
      simp only [List.mem_singleton] at hp
      subst hp
      exact h)
  | false =>
    simp only [Bool.false_eq_true, if_false, Bool.or_eq_false_iff] at h ⊢
    congr 1
    exact replaceFirstIn_id l0 _ _ (by
      intro p hp
      simp only [List.mem_cons, List.mem_singleton, List.not_mem_nil, or_false] at hp
      rcases hp with rfl | rfl
      · exact h.1
      · exact h.2)

theorem applyStatusLine_canon (l0 : Str) (sval : Str) (ms : List Str)
    (hs : valOk sval = true) :
    applyStatusLine (l0 :: metaLine (("status".toList), sval) :: ms) sval
      = l0 :: metaLine (("status".toList), sval) :: ms := by
  unfold applyStatusLine findStatusLineIndex
  rw [show (l0 :: metaLine (("status".toList), sval) :: ms).drop 1
      = metaLine (("status".toList), sval) :: ms from rfl]
  have hstep : findKeyLineFrom ("status".toList) 1
        (metaLine (("status".toList), sval) :: ms)
      = if matchDashKeyLine ("status".toList) (metaLine (("status".toList), sval)) = true
        then some 1 else findKeyLineFrom ("status".toList) 2 ms := rfl
  rw [hstep, matchDashKeyLine_canon _ _ _ (by decide) (by decide) hs, if_pos (by simp)]
  show (l0 :: metaLine (("status".toList), sval) :: ms).set 1
      (leadingWs ((l0 :: metaLine (("status".toList), sval) :: ms).getD 1 [])
        ++ ("- status: ".toList) ++ sval)
    = l0 :: metaLine (("status".toList), sval) :: ms
  exact set_same _ 1 _ rfl (by simp only [List.length_cons]; omega)

theorem applyOneMetadata_canon (l0 : Str) (sval : Str) (es : Metadata) (q : Str)
    (hs : valOk sval = true) (hq : keyOk q = true) (hqs : q ≠ ("status".toList))
    (hes : ∀ kv ∈ es, keyOk kv.1 = true ∧ valOk kv.2 = true)
    (hmem : q ∈ mdKeys es) :
    applyOneMetadata (l0 :: metaLine (("status".toList), sval) :: es.map metaLine) q
        ((mdLookup es q).getD [])
      = l0 :: metaLine (("status".toList), sval) :: es.map metaLine := by
  rcases findKeyLineFrom_meta es 2 q hq hes with ⟨h1, _⟩ | ⟨j, v, h1, hj, h2, h3, hv⟩
  · exfalso
    have hhk := mdHasKey_of_mem es q hmem
    unfold mdHasKey at hhk
    rw [h1] at hhk
    simp at hhk
  · rw [h3]
    simp only [Option.getD_some]
    unfold applyOneMetadata
    rw [if_neg (valOk_ne_nil v hv)]
    unfold findMetadataLineIndex
    rw [show (l0 :: metaLine (("status".toList), sval) :: es.map metaLine).drop 1
        = metaLine (("status".toList), sval) :: es.map metaLine from rfl]
    have hno : matchDashKeyLine q (metaLine (("status".toList), sval)) = false := by
      rw [matchDashKeyLine_canon q _ _ hq (by decide) hs]
      simp only [decide_eq_false_iff_not]
      exact fun h => hqs (h.trans rfl)
    have hstep : findKeyLineFrom q 1
          (metaLine (("status".toList), sval) :: es.map metaLine)
        = if matchDashKeyLine q (metaLine (("status".toList), sval)) = true then some 1
          else findKeyLineFrom q 2 (es.map metaLine) := rfl
    rw [hstep, hno]
    simp only [Bool.false_eq_true, if_false]
    rw [h1]
    dsimp only
    rw [if_pos (show 1 < (l0 :: metaLine (("status".toList), sval)
        :: es.map metaLine).length from by simp only [List.length_cons]; omega)]
    rw [show (l0 :: metaLine (("status".toList), sval) :: es.map metaLine).getD 1 []
        = metaLine (("status".toList), sval) from rfl]
    rw [show leadingWs (metaLine (("status".toList), sval)) = [' ', ' '] from rfl]
    rw [show (2 : Nat) + j = j + 2 from Nat.add_comm 2 j]
    exact set_same _ (j + 2) _ h2
      (by simp only [List.length_cons, List.length_map] at hj ⊢; omega)

theorem applyMetadataKeys_canon (l0 sval : Str) (es : Metadata)
    (hs : valOk sval = true)
    (hes : ∀ kv ∈ es, keyOk kv.1 = true ∧ valOk kv.2 = true ∧ kv.1 ≠ ("status".toList)) :
    ∀ ks : List Str, (∀ k ∈ ks, k ∈ mdKeys es) →
      applyMetadataKeys (l0 :: metaLine (("status".toList), sval) :: es.map metaLine) es ks
        = l0 :: metaLine (("status".toList), sval) :: es.map metaLine
  | [], _ => rfl
  | k :: ks, hks => by
    have hk : k ∈ mdKeys es := hks k (List.mem_cons_self _ _)
    obtain ⟨kv, hkv, hkeq⟩ := List.mem_map.mp hk
    have hkOk : keyOk k = true := hkeq ▸ (hes kv hkv).1
    have hkS : k ≠ ("status".toList) := hkeq ▸ (hes kv hkv).2.2
    show applyMetadataKeys
        (applyOneMetadata (l0 :: metaLine (("status".toList), sval) :: es.map metaLine) k
          ((mdLookup es k).getD []))
        es ks
      = l0 :: metaLine (("status".toList), sval) :: es.map metaLine
    rw [applyOneMetadata_canon l0 sval es k hs hkOk hkS
      (fun kv h => ⟨(hes kv h).1, (hes kv h).2.1⟩) hk]
    exact applyMetadataKeys_canon l0 sval es hs hes ks
      (fun x hx => hks x (List.mem_cons_of_mem _ hx))

theorem filter_not_hasKey_nil (es : Metadata) (ks : List Str)
    (h : ∀ k ∈ ks, k ∈ mdKeys es) :
    ks.filter (fun k => !(mdHasKey es k)) = [] := by
  rw [List.filter_eq_nil_iff]
  intro k hk
  simp [mdHasKey_of_mem es k (h k hk)]

/-- C1, counterexample: the claim says a no-op update (re-setting status to
its current value) leaves the checkbox and status lines byte-identical.  It
fails two ways.  First, the code rewrites the status line as
`<indent>- status: <value>` from scratch, so any cosmetically different but
equivalent status line — here with two spaces after the colon, which the
parser trims away — is normalized, changing its bytes.  Second, the checkbox
flip replaces the FIRST `[ ]` (resp. `[x]`/`[X]`) anywhere on the checkbox
line, so even on a slice in the serializer's own canonical form a
checkbox-marker token inside the title is rewritten: the no-op update turns
`- [x] review [ ] boxes` into `- [x] review [x] boxes`, although the title
is canonical (`valOk`) and the first line is exactly `checkboxLine` of it. -/
theorem C1_counterexample :
    (applyEdit ("- [x] t\n  - status:  done".toList)
        { taskId := some ("(root)::t".toList), newStatus := some ⟨("done".toList)⟩
          doneStatuses := some [("done".toList)] }
      = .ok ("- [x] t\n  - status: done".toList)
    ∧ (splitLines ("- [x] t\n  - status:  done".toList)).getD 1 []
        ≠ (splitLines ("- [x] t\n  - status: done".toList)).getD 1 [])
    ∧ (applyEdit ("- [x] review [ ] boxes\n  - status: done".toList)
        { taskId := some ("(root)::review [ ] boxes".toList)
          newStatus := some ⟨("done".toList)⟩
          doneStatuses := some [("done".toList)] }
      = .ok ("- [x] review [x] boxes\n  - status: done".toList)
    ∧ valOk ("review [ ] boxes".toList) = true
    ∧ (splitLines ("- [x] review [ ] boxes\n  - status: done".toList)).getD 0 []
        = checkboxLine 'x' ("review [ ] boxes".toList)
    ∧ (splitLines ("- [x] review [ ] boxes\n  - status: done".toList)).getD 0 []
        ≠ (splitLines ("- [x] review [x] boxes\n  - status: done".toList)).getD 0 []) :=
  ⟨⟨rfl, by decide⟩, rfl, by decide, by decide, by decide⟩

/-- C1 (amended): the no-op round trip is byte-identical under all of the
following conditions, and (per `C1_counterexample`) fails when any of them is
dropped: (1) the document's line terminators are uniform — either no CR at
all, or every CR paired into CRLF and every LF preceded by CR; (2) the task
slice is in the serializer's own canonical form: checkbox line
`- [b] <title>` with marker blank/`x`/`X`, status child line
`  - status: <value>`, metadata child lines `  - <key>: <value>` with
non-empty colon-free keys other than `status` and non-empty terminator-free
values starting with a non-whitespace character; (3) the edit re-sets title,
status and metadata to exactly those current values, with no path change;
and (4) the checkbox-flip replacement finds no match on the checkbox line —
the marker already agrees with membership of the status value in the edit's
done statuses, and the title contains no `[ ]` (when flipping to done) or
`[x]`/`[X]` (when flipping to not-done).  Then the update returns the input
text byte-for-byte: untouched portions, checkbox line and status line
included. -/
theorem C1_noop_roundtrip
    (md : Str) (task : ParsedTask) (edit : TaskEdit)
    (b : Char) (title sval : Str) (es : Metadata) (pre post : List Str)
    (heol : noCR md = true ∨ (pairedCR md = true ∧ pairedLF md = true))
    (hb : b = ' ' ∨ b = 'x' ∨ b = 'X')
    (htitle : valOk title = true)
    (hsval : valOk sval = true)
    (hes : ∀ kv ∈ es, keyOk kv.1 = true ∧ valOk kv.2 = true ∧ kv.1 ≠ ("status".toList))
    (hsplit : splitLines md
        = pre ++ (checkboxLine b title :: metaLine (("status".toList), sval)
            :: es.map metaLine) ++ post)
    (hstart : task.startLine = pre.length + 1)
    (hend : task.endLine = pre.length + 2 + es.length)
    (hmeta : task.metadata = es)
    (hpath : edit.newPath = none)
    (htitleE : edit.newTitle = some title)
    (hstatusE : edit.newStatus = some ⟨sval⟩)
    (hmetaE : edit.newMetadata = some es)
    (hflip : (if ((edit.doneStatuses).map (fun ds => ds.contains sval)).getD false
              then containsSub (checkboxLine b title) ['[', ' ', ']']
              else containsSub (checkboxLine b title) ['[', 'x', ']']
                || containsSub (checkboxLine b title) ['[', 'X', ']']) = false) :
    updateTask md task edit = .ok md := by
  unfold updateTask
  rw [hpath]
  show updateTaskInPlace md task edit = .ok md
  unfold updateTaskInPlace
  dsimp only
  rw [hsplit, hstart, hend, htitleE, hstatusE, hmetaE, hmeta]
  have hidx : pre.length + 1 - 1 = pre.length := by omega
  rw [hidx]
  have hlenT : (checkboxLine b title :: metaLine (("status".toList), sval)
      :: es.map metaLine).length = 2 + es.length := by
    simp only [List.length_cons, List.length_map]
    omega
  have hslice : jsSlice (pre ++ (checkboxLine b title :: metaLine (("status".toList), sval)
        :: es.map metaLine) ++ post) pre.length (pre.length + 2 + es.length)
      = checkboxLine b title :: metaLine (("status".toList), sval) :: es.map metaLine := by
    unfold jsSlice
    rw [List.append_assoc, List.drop_left,
      show pre.length + 2 + es.length - pre.length
        = (checkboxLine b title :: metaLine (("status".toList), sval)
            :: es.map metaLine).length from by rw [hlenT]; omega,
      List.take_left]
  rw [hslice]
  rw [applyTitleChange_canon b title _ hb htitle]
  unfold applyStatusChange
  dsimp only
  rw [applyCheckboxFlip_canon (checkboxLine b title) _ _ hflip]
  rw [applyStatusLine_canon (checkboxLine b title) sval (es.map metaLine) hsval]
  unfold applyMetadataChange
  dsimp only
  rw [filter_not_hasKey_nil es _ (fun k hk => List.mem_of_mem_filter hk)]
  show Except.ok (joinLines (spliceReplace (pre ++ (checkboxLine b title
        :: metaLine (("status".toList), sval) :: es.map metaLine) ++ post) pre.length
      (pre.length + 2 + es.length - (pre.length + 1) + 1)
      (applyMetadataKeys (checkboxLine b title :: metaLine (("status".toList), sval)
          :: es.map metaLine) es
        ((mdKeys es).filter (fun k => k ≠ ("status".toList)))))
      (detectEol md)) = Except.ok md
  rw [applyMetadataKeys_canon (checkboxLine b title) sval es hsval hes _
    (fun k hk => List.mem_of_mem_filter hk)]
  have hcnt : pre.length + 2 + es.length - (pre.length + 1) + 1
      = (checkboxLine b title :: metaLine (("status".toList), sval)
          :: es.map metaLine).length := by
    rw [hlenT]
    omega
  have hsplice : spliceReplace (pre ++ (checkboxLine b title
        :: metaLine (("status".toList), sval) :: es.map metaLine) ++ post) pre.length
      (pre.length + 2 + es.length - (pre.length + 1) + 1)
      (checkboxLine b title :: metaLine (("status".toList), sval) :: es.map metaLine)
      = pre ++ (checkboxLine b title :: metaLine (("status".toList), sval)
          :: es.map metaLine) ++ post := by
    unfold spliceReplace
    rw [hcnt]
    have htake : List.take pre.length (pre ++ (checkboxLine b title
          :: metaLine (("status".toList), sval) :: es.map metaLine) ++ post) = pre := by
      rw [List.append_assoc]
      exact List.take_left pre _
    have hdrop : List.drop (pre.length + (checkboxLine b title
          :: metaLine (("status".toList), sval) :: es.map metaLine).length)
        (pre ++ (checkboxLine b title
          :: metaLine (("status".toList), sval) :: es.map metaLine) ++ post) = post := by
      rw [show pre.length + (checkboxLine b title
            :: metaLine (("status".toList), sval) :: es.map metaLine).length
          = (pre ++ (checkboxLine b title
              :: metaLine (("status".toList), sval) :: es.map metaLine)).length
        from (List.length_append _ _).symm]
      exact List.drop_left _ post
    rw [htake, hdrop]
  rw [hsplice, ← hsplit]
  exact congrArg Except.ok (joinLines_splitLines_detect md heol)

/-- C1, witness: the amended no-op round trip applied to a concrete document
(`# H`, a checked task `t` with status `done` and one metadata entry `k: v`,
then a trailing line): the update re-setting title, status and metadata to
the current values returns the document byte-for-byte. -/
theorem C1_witness :
    updateTask ("# H\n- [x] t\n  - status: done\n  - k: v\ntail".toList)
      { id := ("H::t".toList), title := ("t".toList), status := ⟨("done".toList)⟩
        path := ⟨[("H".toList)]⟩, isChecked := true
        metadata := [(("k".toList), ("v".toList))], startLine := 2, endLine := 4 }
      { taskId := some ("H::t".toList), newStatus := some ⟨("done".toList)⟩
        newTitle := some ("t".toList)
        newMetadata := some [(("k".toList), ("v".toList))]
        doneStatuses := some [("done".toList)] }
    = .ok ("# H\n- [x] t\n  - status: done\n  - k: v\ntail".toList) :=
  C1_noop_roundtrip _ _ _ 'x' ("t".toList) ("done".toList)
    [(("k".toList), ("v".toList))] [("# H".toList)] [("tail".toList)]
    (.inl (by decide)) (.inr (.inl rfl)) (by decide) (by decide) (by decide)
    (by decide) rfl rfl rfl rfl rfl rfl rfl (by decide)

end MdTasks
